import Mathlib

/-
Verification development for the fol_ly first-order-logic library
(modules language.py, term.py, formula.py).

Modelling conventions:
* A Python "string of a language" is a space-delimited sequence of
  whitespace-free, non-empty symbols.  We represent such strings by their
  token lists (`List String`); Python's `" ".join` / `str.split` pair is the
  identity at this level of representation, and `__str__` becomes a
  token-list rendering (`Term.render` / `Formula.render`).
* Python `raise ValueError(msg)` is modelled by `Except.error msg`; the
  carried message string is the only runtime payload of a Python ValueError,
  so distinct failure conditions are distinguished by their messages.
  An uncaught Python `IndexError` (list index out of range) is modelled by
  `Except.error "list index out of range"`, its message in CPython.
* `Language` stores its symbol sets as (assoc-)lists fixed once per value;
  Python's set/dict equality then coincides with structural equality of the
  chosen representative, which is what `DecidableEq Language` provides.
* `Language.wf` records the constructor-enforced validity of a vocabulary
  together with the module-level documented invariant that symbols are
  non-empty (language.py's module docstring: a symbol "will be a finite,
  non-empty string that contains no whitespace").
-/

namespace FolLy

-- language.py: COMMON_SYMBOLS (a Python set; order immaterial, we fix a list)
def COMMON_SYMBOLS : List String := ["(", ")", "||", "!!", "AA", "="]

-- language.py: SHORTHAND_SYMBOLS
def SHORTHAND_SYMBOLS : List String := ["&&", "->", "<->", "EE"]

-- language.py: VAR_SYMBOL_RE = r"^v[1-9]\d*$", used via re.match in
-- Language.is_variable_symbol: a 'v' followed by a nonzero digit and then
-- any digits.
def is_variable_symbol (s : String) : Bool :=
  match s.data with
  | 'v' :: c :: cs => c.isDigit && c != '0' && cs.all Char.isDigit
  | _ => false

-- language.py: Language.is_valid_nonlogical_symbol
def is_valid_nonlogical_symbol (s : String) : Bool :=
  !COMMON_SYMBOLS.contains s
    && !s.data.any (fun ch => ch.isWhitespace)
    && !is_variable_symbol s
    && !SHORTHAND_SYMBOLS.contains s

-- language.py: class Language.  _functions/_relations map each symbol to its
-- arity (Python stores dict[arity, set[symbol]]; we store the transposed
-- association list, which supports the same get_*_arity lookups).
structure Language where
  constants : List String
  functions : List (String × Nat)
  relations : List (String × Nat)
deriving DecidableEq

-- language.py: Language.is_constant_symbol
def Language.is_constant_symbol (L : Language) (s : String) : Bool :=
  L.constants.contains s

-- language.py: Language.get_function_arity (None becomes Option.none)
def Language.get_function_arity (L : Language) (s : String) : Option Nat :=
  L.functions.lookup s

-- language.py: Language.get_relation_arity
def Language.get_relation_arity (L : Language) (s : String) : Option Nat :=
  L.relations.lookup s

-- Constructor-enforced validity of a Language (language.py Language.__init__:
-- pairwise disjoint symbol sets, each symbol a valid non-logical symbol,
-- positive arities), plus the documented non-emptiness of symbols.
def Language.wf (L : Language) : Prop :=
  (L.constants ++ L.functions.map Prod.fst ++ L.relations.map Prod.fst).Nodup
    ∧ (∀ c ∈ L.constants, is_valid_nonlogical_symbol c = true ∧ c ≠ "")
    ∧ (∀ p ∈ L.functions, is_valid_nonlogical_symbol p.1 = true ∧ p.1 ≠ "" ∧ 0 < p.2)
    ∧ (∀ p ∈ L.relations, is_valid_nonlogical_symbol p.1 = true ∧ p.1 ≠ "" ∧ 0 < p.2)

-- term.py: the Term class hierarchy (VariableTerm / ConstantTerm /
-- FunctionTerm), as a closed variant type.  Every node stores its language,
-- as every Python Term instance does.
inductive Term where
  | var (lang : Language) (v : String)
  | const (lang : Language) (c : String)
  | func (lang : Language) (f : String) (arguments : List Term)

-- term.py: the .language attribute
def Term.language : Term → Language
  | .var l _ => l
  | .const l _ => l
  | .func l _ _ => l

-- term.py: __eq__ of each Term subclass (deep structural equality comparing
-- class, language and fields; argument lists compare pointwise).
mutual
def Term.beq : Term → Term → Bool
  | .var l v, .var l' v' => l == l' && v == v'
  | .const l c, .const l' c' => l == l' && c == c'
  | .func l f args, .func l' f' args' => l == l' && f == f' && Term.beq_list args args'
  | _, _ => false

def Term.beq_list : List Term → List Term → Bool
  | [], [] => true
  | a :: as, b :: bs => Term.beq a b && Term.beq_list as bs
  | _, _ => false
end

instance : BEq Term := ⟨Term.beq⟩

mutual
theorem Term.beq_iff : ∀ a b : Term, Term.beq a b = true ↔ a = b
  | .var _ _, .var _ _ => by simp [Term.beq, Term.var.injEq]
  | .const _ _, .const _ _ => by simp [Term.beq, Term.const.injEq]
  | .func _ _ args, .func _ _ args' => by
      simp [Term.beq, Term.func.injEq, Term.beq_list_iff args args', and_assoc]
  | .var _ _, .const _ _ => by simp [Term.beq]
  | .var _ _, .func _ _ _ => by simp [Term.beq]
  | .const _ _, .var _ _ => by simp [Term.beq]
  | .const _ _, .func _ _ _ => by simp [Term.beq]
  | .func _ _ _, .var _ _ => by simp [Term.beq]
  | .func _ _ _, .const _ _ => by simp [Term.beq]

theorem Term.beq_list_iff : ∀ as bs : List Term, Term.beq_list as bs = true ↔ as = bs
  | [], [] => by simp [Term.beq_list]
  | a :: as, b :: bs => by
      simp [Term.beq_list, Term.beq_iff a b, Term.beq_list_iff as bs]
  | [], _ :: _ => by simp [Term.beq_list]
  | _ :: _, [] => by simp [Term.beq_list]
end

instance : DecidableEq Term := fun a b =>
  decidable_of_iff (Term.beq a b = true) (Term.beq_iff a b)

instance : LawfulBEq Term where
  eq_of_beq h := (Term.beq_iff _ _).mp h
  rfl := (Term.beq_iff _ _).mpr rfl

instance {ε α : Type} [DecidableEq ε] [DecidableEq α] : DecidableEq (Except ε α) :=
  fun a b =>
  match a, b with
  | .ok x, .ok y => decidable_of_iff (x = y) (by simp)
  | .error x, .error y => decidable_of_iff (x = y) (by simp)
  | .ok _, .error _ => isFalse (by simp)
  | .error _, .ok _ => isFalse (by simp)

-- term.py: __str__ of each Term subclass, at token level.  A VariableTerm or
-- ConstantTerm renders as its single symbol; a FunctionTerm renders as
-- "f a1 a2 ... an" (the space-joined concatenation of the symbol and the
-- renderings of its arguments).
mutual
def Term.render : Term → List String
  | .var _ v => [v]
  | .const _ c => [c]
  | .func _ f args => f :: Term.render_list args

def Term.render_list : List Term → List String
  | [] => []
  | a :: as => Term.render a ++ Term.render_list as
end

-- term.py: str(t), the space-joined form (used only inside error messages)
def Term.to_str (t : Term) : String :=
  String.intercalate " " t.render

-- term.py: get_variable_symbols of each Term subclass (Python returns a set;
-- we return a Finset, with the same union semantics)
mutual
def Term.get_variable_symbols : Term → Finset String
  | .var _ v => {v}
  | .const _ _ => ∅
  | .func _ _ args => Term.get_variable_symbols_list args

def Term.get_variable_symbols_list : List Term → Finset String
  | [] => ∅
  | a :: as => a.get_variable_symbols ∪ Term.get_variable_symbols_list as
end

-- Constructor-enforced validity of a Term over language L (the __init__
-- checks of VariableTerm / ConstantTerm / FunctionTerm): each node stores L,
-- variables match the variable pattern, constants belong to L, and function
-- applications match their symbol's declared arity.
inductive Term.wf (L : Language) : Term → Prop
  | var (v : String) : is_variable_symbol v = true → Term.wf L (.var L v)
  | const (c : String) : L.is_constant_symbol c = true → Term.wf L (.const L c)
  | func (f : String) (args : List Term) :
      L.get_function_arity f = some args.length →
      (∀ a ∈ args, Term.wf L a) →
      Term.wf L (.func L f args)

theorem Term.wf.lang_eq {L : Language} {t : Term} (h : Term.wf L t) :
    t.language = L := by
  cases h <;> rfl

-- term.py: VariableTerm.__init__
def mkVariableTerm (L : Language) (v : String) : Except String Term :=
  if !is_variable_symbol v then .error ("Not a variable symbol: " ++ v)
  else .ok (.var L v)

-- term.py: ConstantTerm.__init__
def mkConstantTerm (L : Language) (c : String) : Except String Term :=
  if !L.is_constant_symbol c then .error ("Not a constant symbol: " ++ c)
  else .ok (.const L c)

-- term.py: FunctionTerm.__init__
def mkFunctionTerm (L : Language) (f : String) (args : List Term) : Except String Term :=
  match L.get_function_arity f with
  | none => .error ("Not a function symbol: " ++ f)
  | some arity =>
    if args.length != arity then
      .error ("Length of arguments does not match arity of f: "
        ++ toString args.length ++ " args given for " ++ toString arity ++ "-ary symbol.")
    else if args.any (fun t => t.language != L) then
      .error "Language of term does not match given language."
    else .ok (.func L f args)

theorem mkVariableTerm_wf {L : Language} {v : String} {t : Term}
    (h : mkVariableTerm L v = .ok t) : Term.wf L t := by
  unfold mkVariableTerm at h
  split at h
  · exact absurd h (by simp)
  · rename_i hv
    cases h
    exact Term.wf.var v (by simpa using hv)

-- term.py: Term.substitute of each subclass.  Each node revalidates its
-- arguments (x a variable symbol, t of the same language) before recursing;
-- rebuilt nodes go back through their constructors, exactly as the Python
-- code re-invokes VariableTerm(...) / ConstantTerm(...) / FunctionTerm(...).
-- A Python list comprehension evaluates left to right and aborts on the
-- first raised exception, which is the behaviour of the monadic
-- substitute_list below.
mutual
def Term.substitute : Term → String → Term → Except String Term
  | .var l v, x, t =>
      if !is_variable_symbol x then .error ("Not a variable symbol: " ++ x)
      else if !(t.language == l) then
        .error ("Given term has a different language: " ++ t.to_str)
      else if x == v then .ok t
      else mkVariableTerm l v
  | .const l c, x, t =>
      if !is_variable_symbol x then .error ("Not a variable symbol: " ++ x)
      else if !(t.language == l) then
        .error ("Given term has a different language: " ++ t.to_str)
      else mkConstantTerm l c
  | .func l f args, x, t =>
      if !is_variable_symbol x then .error ("Not a variable symbol: " ++ x)
      else if t.language != l then .error "t must be a term of the same language."
      else do
        let args' ← Term.substitute_list x t args
        mkFunctionTerm l f args'

def Term.substitute_list (x : String) (t : Term) : List Term → Except String (List Term)
  | [] => .ok []
  | a :: as => do
      let a' ← a.substitute x t
      let as' ← Term.substitute_list x t as
      .ok (a' :: as')
end

-- term.py: Term.find_substituted_term of each subclass.  `Except.ok none`
-- is Python's `return None` ("any term s satisfies the substitution");
-- `Except.ok (some s)` returns the unique witness; `.error` is the raised
-- ValueError.  FunctionTerm builds the full candidate list
-- [self.arguments[i].find_substituted_term(t.arguments[i], x) for i in ...]
-- indexed by the pattern's positions (an out-of-range access into
-- t.arguments raises IndexError), then returns None if every candidate is
-- None, returns the single non-None candidate if there is exactly one, and
-- otherwise raises.
mutual
def Term.find_substituted_term : Term → Term → String → Except String (Option Term)
  | .var l v, t, x =>
      if !(l == t.language) then .error "t must be a term of the same language."
      else if v == x then .ok (some t)
      else if (Term.var l v) == t then .ok none
      else .error "The given substitution cannot be satisfied by any term."
  | .const l c, t, _x =>
      if !(l == t.language) then .error "t must be a term of the same language."
      else if (Term.const l c) == t then .ok none
      else .error "The given substitution cannot be satisfied by any term."
  | .func l f args, t, x =>
      if !(l == t.language) then .error "t must be a term of the same language."
      else
        match t with
        | .func _ f' args' =>
          if !(f == f') then
            .error "The given substitution cannot be satisfied by any term."
          else do
            let candidates ← Term.find_substituted_term_list args args' x
            if candidates.all Option.isNone then .ok none
            else
              match candidates.filterMap id with
              | [c] => .ok (some c)
              | _ => .error "The given substitution cannot be satisfied by any term."
        | _ => .error "The given substitution cannot be satisfied by any term."

def Term.find_substituted_term_list :
    List Term → List Term → String → Except String (List (Option Term))
  | [], _, _ => .ok []
  | a :: as, bs, x =>
      match bs with
      | [] => .error "list index out of range"
      | b :: bs' => do
          let c ← a.find_substituted_term b x
          let cs ← Term.find_substituted_term_list as bs' x
          .ok (c :: cs)
end

-- formula.py: the Formula class hierarchy (EqualityFormula / RelationFormula
-- / NegationFormula / DisjunctionFormula / QuantifiedFormula), as a closed
-- variant type; every node stores its language.
inductive Formula where
  | eq (lang : Language) (t1 t2 : Term)
  | rel (lang : Language) (R : String) (arguments : List Term)
  | neg (lang : Language) (P : Formula)
  | disj (lang : Language) (P Q : Formula)
  | all (lang : Language) (v : String) (P : Formula)
deriving DecidableEq

-- formula.py: the .language attribute
def Formula.language : Formula → Language
  | .eq l _ _ => l
  | .rel l _ _ => l
  | .neg l _ => l
  | .disj l _ _ => l
  | .all l _ _ => l

-- formula.py: __str__ of each Formula subclass, at token level:
-- "= t1 t2", "R t1 ... tn", "( !! P )", "( P || Q )", "( AA v ) ( P )".
def Formula.render : Formula → List String
  | .eq _ t1 t2 => "=" :: (t1.render ++ t2.render)
  | .rel _ R args => R :: Term.render_list args
  | .neg _ P => "(" :: "!!" :: (P.render ++ [")"])
  | .disj _ P Q => "(" :: (P.render ++ "||" :: (Q.render ++ [")"]))
  | .all _ v P => "(" :: "AA" :: v :: ")" :: "(" :: (P.render ++ [")"])

-- formula.py: get_free_variables of each subclass.  RelationFormula takes
-- the union of its arguments' variable sets (Python set.union(*[...]);
-- arity is positive so the argument list is never empty there);
-- QuantifiedFormula discards its bound variable.
def Formula.get_free_variables : Formula → Finset String
  | .eq _ t1 t2 => t1.get_variable_symbols ∪ t2.get_variable_symbols
  | .rel _ _ args => Term.get_variable_symbols_list args
  | .neg _ P => P.get_free_variables
  | .disj _ P Q => P.get_free_variables ∪ Q.get_free_variables
  | .all _ v P => P.get_free_variables.erase v

-- formula.py: Formula.variable_free_in_formula
def Formula.variable_free_in_formula (F : Formula) (v : String) : Bool :=
  v ∈ F.get_free_variables

-- Constructor-enforced validity of a Formula over language L (the __init__
-- checks of the five Formula subclasses).
inductive Formula.wf (L : Language) : Formula → Prop
  | eq {t1 t2 : Term} : Term.wf L t1 → Term.wf L t2 → Formula.wf L (.eq L t1 t2)
  | rel (R : String) (args : List Term) :
      L.get_relation_arity R = some args.length →
      (∀ a ∈ args, Term.wf L a) →
      Formula.wf L (.rel L R args)
  | neg {P : Formula} : Formula.wf L P → Formula.wf L (.neg L P)
  | disj {P Q : Formula} : Formula.wf L P → Formula.wf L Q → Formula.wf L (.disj L P Q)
  | all (v : String) {P : Formula} :
      is_variable_symbol v = true → Formula.wf L P → Formula.wf L (.all L v P)

theorem Formula.wf.flang_eq {L : Language} {F : Formula} (h : Formula.wf L F) :
    F.language = L := by
  cases h <;> rfl

-- formula.py: EqualityFormula.__init__
def mkEqualityFormula (L : Language) (t1 t2 : Term) : Except String Formula :=
  if t1.language != L || t2.language != L then
    .error "Language of term does not match given language."
  else .ok (.eq L t1 t2)

-- formula.py: RelationFormula.__init__
def mkRelationFormula (L : Language) (R : String) (args : List Term) : Except String Formula :=
  match L.get_relation_arity R with
  | none => .error ("Not a relation symbol: " ++ R)
  | some arity =>
    if args.length != arity then
      .error ("Length of arguments does not match arity of R: "
        ++ toString args.length ++ " args given for " ++ toString arity ++ "-ary symbol.")
    else if args.any (fun t => t.language != L) then
      .error "Language of term does not match given language."
    else .ok (.rel L R args)

-- formula.py: NegationFormula.__init__
def mkNegationFormula (L : Language) (P : Formula) : Except String Formula :=
  if P.language != L then .error "Language of P does not match given language."
  else .ok (.neg L P)

-- formula.py: DisjunctionFormula.__init__
def mkDisjunctionFormula (L : Language) (P Q : Formula) : Except String Formula :=
  if P.language != L || Q.language != L then
    .error "Language of P or Q does not match given language."
  else .ok (.disj L P Q)

-- formula.py: QuantifiedFormula.__init__ (the Python error message is the
-- literal "Not a variable symbol: {v}" — the f-string prefix is missing in
-- the source, so no interpolation happens)
def mkQuantifiedFormula (L : Language) (v : String) (P : Formula) : Except String Formula :=
  if P.language != L then .error "Language of P does not match given language."
  else if !is_variable_symbol v then .error "Not a variable symbol: \x7bv\x7d"
  else .ok (.all L v P)

-- formula.py: Formula.substitute of each subclass.  Every node revalidates
-- its arguments first; QuantifiedFormula returns a structurally equal copy
-- when x is its own bound variable and otherwise recurses into its body only.
def Formula.substitute : Formula → String → Term → Except String Formula
  | .eq l t1 t2, x, t =>
      if !is_variable_symbol x then .error ("Not a variable symbol: " ++ x)
      else if !(t.language == l) then
        .error ("Given term has a different language: " ++ t.to_str)
      else do
        let t1' ← t1.substitute x t
        let t2' ← t2.substitute x t
        mkEqualityFormula l t1' t2'
  | .rel l R args, x, t =>
      if !is_variable_symbol x then .error ("Not a variable symbol: " ++ x)
      else if !(t.language == l) then
        .error ("Given term has a different language: " ++ t.to_str)
      else do
        let args' ← Term.substitute_list x t args
        mkRelationFormula l R args'
  | .neg l P, x, t =>
      if !is_variable_symbol x then .error ("Not a variable symbol: " ++ x)
      else if !(t.language == l) then
        .error ("Given term has a different language: " ++ t.to_str)
      else do
        let P' ← P.substitute x t
        mkNegationFormula l P'
  | .disj l P Q, x, t =>
      if !is_variable_symbol x then .error ("Not a variable symbol: " ++ x)
      else if !(t.language == l) then
        .error ("Given term has a different language: " ++ t.to_str)
      else do
        let P' ← P.substitute x t
        let Q' ← Q.substitute x t
        mkDisjunctionFormula l P' Q'
  | .all l v P, x, t =>
      if !is_variable_symbol x then .error ("Not a variable symbol: " ++ x)
      else if !(t.language == l) then
        .error ("Given term has a different language: " ++ t.to_str)
      else if x == v then mkQuantifiedFormula l v P
      else do
        let P' ← P.substitute x t
        mkQuantifiedFormula l v P'

-- formula.py: Formula.is_substitutable of each subclass.  Atomic formulas
-- are always substitutable; DisjunctionFormula mirrors Python's
-- short-circuit `and`; QuantifiedFormula mirrors Python's short-circuit
-- `not self.P.variable_free_in_formula(x) or (self.v not in
-- t.get_variable_symbols() and self.P.is_substitutable(x, t))`.
def Formula.is_substitutable : Formula → String → Term → Except String Bool
  | .eq l _ _, x, t =>
      if !is_variable_symbol x then .error ("Not a variable symbol: " ++ x)
      else if !(t.language == l) then
        .error ("Given term has a different language: " ++ t.to_str)
      else .ok true
  | .rel l _ _, x, t =>
      if !is_variable_symbol x then .error ("Not a variable symbol: " ++ x)
      else if !(t.language == l) then
        .error ("Given term has a different language: " ++ t.to_str)
      else .ok true
  | .neg l P, x, t =>
      if !is_variable_symbol x then .error ("Not a variable symbol: " ++ x)
      else if !(t.language == l) then
        .error ("Given term has a different language: " ++ t.to_str)
      else P.is_substitutable x t
  | .disj l P Q, x, t =>
      if !is_variable_symbol x then .error ("Not a variable symbol: " ++ x)
      else if !(t.language == l) then
        .error ("Given term has a different language: " ++ t.to_str)
      else do
        let b ← P.is_substitutable x t
        if b then Q.is_substitutable x t else .ok false
  | .all l v P, x, t =>
      if !is_variable_symbol x then .error ("Not a variable symbol: " ++ x)
      else if !(t.language == l) then
        .error ("Given term has a different language: " ++ t.to_str)
      else
        if P.variable_free_in_formula x then
          if v ∈ t.get_variable_symbols then .ok false
          else P.is_substitutable x t
        else .ok true

-- formula.py: Formula.find_substituted_term of each subclass.
-- EqualityFormula and DisjunctionFormula compute both children's candidates
-- and merge them: None yields the other candidate, equal candidates yield
-- that candidate, different candidates raise.  RelationFormula uses the same
-- candidate-list logic as FunctionTerm.  QuantifiedFormula, when its bound
-- variable equals x, reports no-constraint exactly when pattern equals
-- result; otherwise it recurses into the bodies (without comparing the two
-- bound variables).
def Formula.find_substituted_term : Formula → Formula → String → Except String (Option Term)
  | .eq l t1 t2, f, x =>
      if !(f.language == l) then .error "f must be a formula of the same language."
      else
        match f with
        | .eq _ u1 u2 => do
            let candidate_one ← t1.find_substituted_term u1 x
            let candidate_two ← t2.find_substituted_term u2 x
            match candidate_one with
            | none => .ok candidate_two
            | some a =>
              match candidate_two with
              | none => .ok (some a)
              | some b =>
                if a == b then .ok (some a)
                else .error "The given substitution cannot be satisfied by any term."
        | _ => .error "The given substitution cannot be satisfied by any term."
  | .rel l R args, f, x =>
      if !(l == f.language) then .error "f must be a formula of the same language."
      else
        match f with
        | .rel _ R' args' =>
          if !(R == R') then
            .error "The given substitution cannot be satisfied by any term."
          else do
            let candidates ← Term.find_substituted_term_list args args' x
            if candidates.all Option.isNone then .ok none
            else
              match candidates.filterMap id with
              | [c] => .ok (some c)
              | _ => .error "The given substitution cannot be satisfied by any term."
        | _ => .error "The given substitution cannot be satisfied by any term."
  | .neg l P, f, x =>
      if !(l == f.language) then .error "f must be a formula of the same language."
      else
        match f with
        | .neg _ P' => P.find_substituted_term P' x
        | _ => .error "The given substitution cannot be satisfied by any term."
  | .disj l P Q, f, x =>
      if !(f.language == l) then .error "f must be a formula of the same language."
      else
        match f with
        | .disj _ P' Q' => do
            let candidate_one ← P.find_substituted_term P' x
            let candidate_two ← Q.find_substituted_term Q' x
            match candidate_one with
            | none => .ok candidate_two
            | some a =>
              match candidate_two with
              | none => .ok (some a)
              | some b =>
                if a == b then .ok (some a)
                else .error "The given substitution cannot be satisfied by any term."
        | _ => .error "The given substitution cannot be satisfied by any term."
  | .all l v P, f, x =>
      if !(f.language == l) then .error "f must be a formula of the same language."
      else
        match f with
        | .all _ _ P' =>
          if v == x then
            if (Formula.all l v P) == f then .ok none
            else .error "The given substitution cannot be satisfied by any term."
          else P.find_substituted_term P' x
        | _ => .error "The given substitution cannot be satisfied by any term."

-- formula.py: get_top_level_logical_connective.  The loop scans left to
-- right keeping difference = #"(" - #")" seen so far and breaks at the first
-- connective token seen while difference == 1; after a full pass without
-- break, Python's loop variable i remains len(symbols) - 1.  The index is
-- accepted only if 1 < i < len(symbols) - 2.
def binary_logical_connectives : List String := ["||", "&&", "->", "<->"]

def scan_connective : List String → Int → Nat → Option Nat
  | [], _, _ => none
  | s :: rest, difference, i =>
      if s == "(" then scan_connective rest (difference + 1) (i + 1)
      else if s == ")" then scan_connective rest (difference - 1) (i + 1)
      else if binary_logical_connectives.contains s && difference == 1 then some i
      else scan_connective rest difference (i + 1)

def get_top_level_logical_connective (symbols : List String) : Except String Nat :=
  let i := (scan_connective symbols 0 0).getD (symbols.length - 1)
  if 1 < i ∧ i < symbols.length - 2 then .ok i
  else
    .error ("Symbols cannot be parsed as a formula \"( P C Q )\": "
      ++ String.intercalate " " symbols)

-- formula.py: create_existential_formula ("( !! ( AA v ) ( !! P ) )")
def create_existential_formula (P : Formula) (v : String) : Except String Formula := do
  let inner ← mkNegationFormula P.language P
  let q ← mkQuantifiedFormula P.language v inner
  mkNegationFormula P.language q

-- formula.py: create_conjunction_formula ("( !! ( ( !! P ) || ( !! Q ) ) )")
def create_conjunction_formula (P Q : Formula) : Except String Formula := do
  let np ← mkNegationFormula P.language P
  let nq ← mkNegationFormula P.language Q
  let d ← mkDisjunctionFormula P.language np nq
  mkNegationFormula P.language d

-- formula.py: create_implication_formula ("( ( !! P ) || Q )")
def create_implication_formula (P Q : Formula) : Except String Formula := do
  let np ← mkNegationFormula P.language P
  mkDisjunctionFormula P.language np Q

-- formula.py: create_equivalence_formula ("( ( P -> Q ) && ( Q -> P ) )")
def create_equivalence_formula (P Q : Formula) : Except String Formula := do
  let i1 ← create_implication_formula P Q
  let i2 ← create_implication_formula Q P
  create_conjunction_formula i1 i2

-- Python's range(a, b)
def pyRange (a b : Nat) : List Nat :=
  List.range' a (b - a)

-- itertools.combinations(pool, k): all k-element subsequences of pool, in
-- lexicographic order of positions.
def combinations : Nat → List Nat → List (List Nat)
  | 0, _ => [[]]
  | _ + 1, [] => []
  | k + 1, a :: as => (combinations k as).map (fun c => a :: c) ++ combinations (k + 1) as

-- A Python `for ...: try: return ...; except ValueError: pass` loop followed
-- by a final raise: return the first successful attempt, else fail.
def firstOk (msg : String) (attempt : α → Except String β) : List α → Except String β
  | [] => .error msg
  | a :: as =>
    match attempt a with
    | .ok r => .ok r
    | .error _ => firstOk msg attempt as

-- The argument-slicing loop shared by string_to_term and string_to_formula:
-- given split indices [c0, ..., ck], parse symbols[start:c0], symbols[c0:c1],
-- ..., symbols[ck:] in order, aborting at the first failure.
def parse_slices (p : List String → Except String Term) (symbols : List String) :
    Nat → List Nat → Except String (List Term)
  | start, [] => do
      let t ← p (symbols.drop start)
      .ok [t]
  | start, e :: rest => do
      let t ← p ((symbols.drop start).take (e - start))
      let ts ← parse_slices p symbols e rest
      .ok (t :: ts)

-- term.py: string_to_term.  The Python function takes the space-joined
-- string; its initial is_variable_symbol / is_constant_symbol tests on the
-- whole string succeed exactly on single-symbol strings (symbols are
-- non-empty and whitespace-free), which is the [s] case below.  Recursion is
-- by fuel, strictly larger than the token count at every call (each
-- recursive call is on a strictly shorter slice).
def string_to_term_aux (L : Language) : Nat → List String → Except String Term
  | 0, _ => .error "Cannot parse string into a term."
  | fuel + 1, symbols =>
    match symbols with
    | [] => .error "Cannot parse string into a term."
    | [s] =>
        if is_variable_symbol s then mkVariableTerm L s
        else if L.is_constant_symbol s then mkConstantTerm L s
        else .error "Cannot parse string into a term."
    | s :: _ :: _ =>
        match L.get_function_arity s with
        | none => .error "Cannot parse string into a term."
        | some arity =>
          if symbols.length < arity + 1 then .error "Cannot parse string into a term."
          else if arity == 1 then do
            let t ← string_to_term_aux L fuel (symbols.drop 1)
            mkFunctionTerm L s [t]
          else
            firstOk "Cannot parse string into a term."
              (fun c => do
                let args ← parse_slices (string_to_term_aux L fuel) symbols 1 c
                mkFunctionTerm L s args)
              (combinations (arity - 1) (pyRange 2 symbols.length))

def string_to_term (L : Language) (symbols : List String) : Except String Term :=
  string_to_term_aux L (symbols.length + 1) symbols

-- formula.py: the compound-formula part of string_to_formula (everything
-- after the equality and relation branches): the fixed-position checks for
-- "!!", "AA", "EE", then the top-level-connective fallback.  `recur` is the
-- recursive call to string_to_formula.
def string_to_formula_paren (L : Language) (recur : List String → Except String Formula)
    (symbols : List String) : Except String Formula :=
  if symbols.head? != some "(" || symbols.getLast? != some ")" then
    .error "Cannot parse string into a formula."
  else if symbols.getD 1 "" == "!!" then do
    let P ← recur ((symbols.drop 2).dropLast)
    mkNegationFormula L P
  else if 6 ≤ symbols.length ∧ symbols.getD 1 "" = "AA"
      ∧ is_variable_symbol (symbols.getD 2 "") = true
      ∧ symbols.getD 3 "" = ")" ∧ symbols.getD 4 "" = "(" then do
    let P ← recur ((symbols.drop 5).dropLast)
    mkQuantifiedFormula L (symbols.getD 2 "") P
  else if 6 ≤ symbols.length ∧ symbols.getD 1 "" = "EE"
      ∧ is_variable_symbol (symbols.getD 2 "") = true
      ∧ symbols.getD 3 "" = ")" ∧ symbols.getD 4 "" = "(" then do
    let P ← recur ((symbols.drop 5).dropLast)
    create_existential_formula P (symbols.getD 2 "")
  else do
    let i ← get_top_level_logical_connective symbols
    let connective := symbols.getD i ""
    if connective == "||" then do
      let P ← recur ((symbols.drop 1).take (i - 1))
      let Q ← recur ((symbols.drop (i + 1)).dropLast)
      mkDisjunctionFormula L P Q
    else if connective == "&&" then do
      let P ← recur ((symbols.drop 1).take (i - 1))
      let Q ← recur ((symbols.drop (i + 1)).dropLast)
      create_conjunction_formula P Q
    else if connective == "->" then do
      let P ← recur ((symbols.drop 1).take (i - 1))
      let Q ← recur ((symbols.drop (i + 1)).dropLast)
      create_implication_formula P Q
    else if connective == "<->" then do
      let P ← recur ((symbols.drop 1).take (i - 1))
      let Q ← recur ((symbols.drop (i + 1)).dropLast)
      create_equivalence_formula P Q
    else
      -- unreachable: get_top_level_logical_connective only returns indices
      -- of connective tokens (the Python code would fall off the end of its
      -- if/elif chain here, returning None)
      .error "Cannot parse string into a formula."

-- formula.py: string_to_formula (fueled like string_to_term_aux)
def string_to_formula_aux (L : Language) : Nat → List String → Except String Formula
  | 0, _ => .error "Cannot parse string into a formula."
  | fuel + 1, symbols =>
    if symbols.length < 2 then .error "Cannot parse string into a formula."
    else
      match symbols with
      | [] => .error "Cannot parse string into a formula."
      | s₀ :: _ =>
        if s₀ == "=" then
          firstOk "Cannot parse string into a formula."
            (fun i => do
              let t1 ← string_to_term L ((symbols.drop 1).take (i - 1))
              let t2 ← string_to_term L (symbols.drop i)
              mkEqualityFormula L t1 t2)
            (pyRange 2 symbols.length)
        else
          match L.get_relation_arity s₀ with
          | some arity =>
            if arity + 1 ≤ symbols.length then
              if arity == 1 then do
                let t ← string_to_term L (symbols.drop 1)
                mkRelationFormula L s₀ [t]
              else
                firstOk "Cannot parse string into a formula."
                  (fun c => do
                    let ts ← parse_slices (string_to_term L) symbols 1 c
                    mkRelationFormula L s₀ ts)
                  (combinations (arity - 1) (pyRange 2 symbols.length))
            else string_to_formula_paren L (string_to_formula_aux L fuel) symbols
          | none => string_to_formula_paren L (string_to_formula_aux L fuel) symbols

def string_to_formula (L : Language) (symbols : List String) : Except String Formula :=
  string_to_formula_aux L (symbols.length + 1) symbols

-- Inversion and success lemmas for the constructors and for Except binds.

theorem except_bind_ok {ε α β : Type} {m : Except ε α} {k : α → Except ε β} {b : β} :
    (m >>= k) = Except.ok b ↔ ∃ a, m = .ok a ∧ k a = .ok b := by
  cases m <;> simp [Except.bind, Bind.bind]

theorem except_bind_error {ε α β : Type} {m : Except ε α} {k : α → Except ε β} {e : ε} :
    (m >>= k) = Except.error e ↔
      m = .error e ∨ ∃ a, m = .ok a ∧ k a = .error e := by
  cases m <;> simp [Except.bind, Bind.bind]

theorem ok_bind {ε α β : Type} (a : α) (k : α → Except ε β) :
    (Except.ok a >>= k : Except ε β) = k a := rfl

theorem error_bind {ε α β : Type} (e : ε) (k : α → Except ε β) :
    ((Except.error e : Except ε α) >>= k) = Except.error e := rfl

theorem mkVariableTerm_ok_iff {L : Language} {v : String} {t : Term} :
    mkVariableTerm L v = .ok t ↔ is_variable_symbol v = true ∧ t = .var L v := by
  unfold mkVariableTerm
  by_cases h : is_variable_symbol v = true <;> simp [h, eq_comm]

theorem mkConstantTerm_ok_iff {L : Language} {c : String} {t : Term} :
    mkConstantTerm L c = .ok t ↔ L.is_constant_symbol c = true ∧ t = .const L c := by
  unfold mkConstantTerm
  by_cases h : L.is_constant_symbol c = true <;> simp [h, eq_comm]

theorem mkFunctionTerm_none {L : Language} {f : String} {args : List Term}
    (h : L.get_function_arity f = none) :
    mkFunctionTerm L f args = .error ("Not a function symbol: " ++ f) := by
  unfold mkFunctionTerm
  rw [h]

theorem mkFunctionTerm_some {L : Language} {f : String} {args : List Term} {n : Nat}
    (h : L.get_function_arity f = some n) :
    mkFunctionTerm L f args =
      if (args.length != n) = true then
        .error ("Length of arguments does not match arity of f: "
          ++ toString args.length ++ " args given for " ++ toString n ++ "-ary symbol.")
      else if (args.any (fun t => t.language != L)) = true then
        .error "Language of term does not match given language."
      else .ok (.func L f args) := by
  unfold mkFunctionTerm
  rw [h]

theorem mkFunctionTerm_ok_iff {L : Language} {f : String} {args : List Term} {t : Term} :
    mkFunctionTerm L f args = .ok t ↔
      L.get_function_arity f = some args.length
        ∧ (∀ a ∈ args, a.language = L) ∧ t = .func L f args := by
  cases harit : L.get_function_arity f with
  | none => rw [mkFunctionTerm_none harit]; simp
  | some n =>
    rw [mkFunctionTerm_some harit]
    constructor
    · intro h
      split at h
      · exact absurd h (by simp)
      · split at h
        · exact absurd h (by simp)
        · rename_i hlen hlang
          have hlen' : args.length = n := by simpa [bne_iff_ne] using hlen
          simp only [List.any_eq_true, bne_iff_ne, not_exists, not_and, not_not]
            at hlang
          exact ⟨by rw [hlen'], hlang, (Except.ok.inj h).symm⟩
    · rintro ⟨hsome, hall, rfl⟩
      have hlen : args.length = n := (Option.some.inj hsome).symm
      split
      · rename_i hc
        simp only [bne_iff_ne, ne_eq] at hc
        exact absurd hlen hc
      · split
        · rename_i hc2
          simp only [List.any_eq_true, bne_iff_ne] at hc2
          obtain ⟨u, hu, hne⟩ := hc2
          exact absurd (hall u hu) hne
        · rfl

theorem mkEqualityFormula_ok_iff {L : Language} {t1 t2 : Term} {F : Formula} :
    mkEqualityFormula L t1 t2 = .ok F ↔
      t1.language = L ∧ t2.language = L ∧ F = .eq L t1 t2 := by
  unfold mkEqualityFormula
  constructor
  · intro h
    split at h
    · exact absurd h (by simp)
    · rename_i hcond
      cases h
      simp only [Bool.or_eq_true, bne_iff_ne, not_or, not_not] at hcond
      exact ⟨hcond.1, hcond.2, rfl⟩
  · rintro ⟨h1, h2, rfl⟩
    rw [if_neg (by simp [bne_iff_ne, h1, h2])]

theorem mkRelationFormula_none {L : Language} {R : String} {args : List Term}
    (h : L.get_relation_arity R = none) :
    mkRelationFormula L R args = .error ("Not a relation symbol: " ++ R) := by
  unfold mkRelationFormula
  rw [h]

theorem mkRelationFormula_some {L : Language} {R : String} {args : List Term} {n : Nat}
    (h : L.get_relation_arity R = some n) :
    mkRelationFormula L R args =
      if (args.length != n) = true then
        .error ("Length of arguments does not match arity of R: "
          ++ toString args.length ++ " args given for " ++ toString n ++ "-ary symbol.")
      else if (args.any (fun t => t.language != L)) = true then
        .error "Language of term does not match given language."
      else .ok (.rel L R args) := by
  unfold mkRelationFormula
  rw [h]

theorem mkRelationFormula_ok_iff {L : Language} {R : String} {args : List Term} {F : Formula} :
    mkRelationFormula L R args = .ok F ↔
      L.get_relation_arity R = some args.length
        ∧ (∀ a ∈ args, a.language = L) ∧ F = .rel L R args := by
  cases harit : L.get_relation_arity R with
  | none => rw [mkRelationFormula_none harit]; simp
  | some n =>
    rw [mkRelationFormula_some harit]
    constructor
    · intro h
      split at h
      · exact absurd h (by simp)
      · split at h
        · exact absurd h (by simp)
        · rename_i hlen hlang
          have hlen' : args.length = n := by simpa [bne_iff_ne] using hlen
          simp only [List.any_eq_true, bne_iff_ne, not_exists, not_and, not_not]
            at hlang
          exact ⟨by rw [hlen'], hlang, (Except.ok.inj h).symm⟩
    · rintro ⟨hsome, hall, rfl⟩
      have hlen : args.length = n := (Option.some.inj hsome).symm
      split
      · rename_i hc
        simp only [bne_iff_ne, ne_eq] at hc
        exact absurd hlen hc
      · split
        · rename_i hc2
          simp only [List.any_eq_true, bne_iff_ne] at hc2
          obtain ⟨u, hu, hne⟩ := hc2
          exact absurd (hall u hu) hne
        · rfl

theorem mkNegationFormula_ok_iff {L : Language} {P : Formula} {F : Formula} :
    mkNegationFormula L P = .ok F ↔ P.language = L ∧ F = .neg L P := by
  unfold mkNegationFormula
  constructor
  · intro h
    split at h
    · exact absurd h (by simp)
    · rename_i hcond
      cases h
      simp only [bne_iff_ne, not_not] at hcond
      exact ⟨hcond, rfl⟩
  · rintro ⟨h1, rfl⟩
    rw [if_neg (by simp [bne_iff_ne, h1])]

theorem mkDisjunctionFormula_ok_iff {L : Language} {P Q : Formula} {F : Formula} :
    mkDisjunctionFormula L P Q = .ok F ↔
      P.language = L ∧ Q.language = L ∧ F = .disj L P Q := by
  unfold mkDisjunctionFormula
  constructor
  · intro h
    split at h
    · exact absurd h (by simp)
    · rename_i hcond
      cases h
      simp only [Bool.or_eq_true, bne_iff_ne, not_or, not_not] at hcond
      exact ⟨hcond.1, hcond.2, rfl⟩
  · rintro ⟨h1, h2, rfl⟩
    rw [if_neg (by simp [bne_iff_ne, h1, h2])]

theorem mkQuantifiedFormula_ok_iff {L : Language} {v : String} {P : Formula} {F : Formula} :
    mkQuantifiedFormula L v P = .ok F ↔
      P.language = L ∧ is_variable_symbol v = true ∧ F = .all L v P := by
  unfold mkQuantifiedFormula
  constructor
  · intro h
    split at h
    · exact absurd h (by simp)
    · rename_i hlang
      split at h
      · exact absurd h (by simp)
      · rename_i hvar
        cases h
        simp only [bne_iff_ne, not_not] at hlang
        simp only [Bool.not_eq_true', Bool.not_eq_false] at hvar
        exact ⟨hlang, hvar, rfl⟩
  · rintro ⟨h1, h2, rfl⟩
    rw [if_neg (by simp [bne_iff_ne, h1]), if_neg (by simp [h2])]

-- The vocabulary of the repository's own test suite (test_formula.py
-- setUp): constants a, b, c; unary f1; ternary f3; binary r2.
def L0 : Language := ⟨["a", "b", "c"], [("f1", 1), ("f3", 3)], [("r2", 2)]⟩

theorem L0_wf : L0.wf := by
  refine ⟨?_, ?_, ?_, ?_⟩ <;> decide

/-- Claim C1.  The claim states that for Application/RelationApp patterns the
pairwise recursion of find_substituted_term returns the common witness
whenever all witness-reporting children agree, and in particular that
findSubstitutedTerm(RelationApp("r2",[Variable("v4"),Variable("v4")]),
RelationApp("r2",[Constant("a"),Constant("a")]), "v4") returns Constant("a").
The code disagrees: its merge step accepts only argument lists with exactly
one non-None candidate (len(term_candidates) == 1), so two children that
report the same witness Constant("a") make it raise
"The given substitution cannot be satisfied by any term." instead of
returning the common witness.  This contradicts the repository's own test
(test_formula.py, TestRelationFormula.test_find_substituted_term_unique,
which asserts the result equals ConstantTerm(language1, "a")) and the
method's docstring, so the claim is right and the code is wrong.  This
theorem evaluates the embedded code at the failing input. -/
theorem claim1_common_witness_rejected_by_code :
    Formula.find_substituted_term
        (.rel L0 "r2" [.var L0 "v4", .var L0 "v4"])
        (.rel L0 "r2" [.const L0 "a", .const L0 "a"]) "v4"
      = .error "The given substitution cannot be satisfied by any term."
    ∧ Term.find_substituted_term
        (.func L0 "f3" [.var L0 "v4", .var L0 "v4", .const L0 "b"])
        (.func L0 "f3" [.const L0 "a", .const L0 "a", .const L0 "b"]) "v4"
      = .error "The given substitution cannot be satisfied by any term." := by
  exact ⟨by decide, by decide⟩

/-- Claim C2.  The claimed inverse law
find_substituted_term(T, substitute(T, x, t), x) = t for x free in T fails
on the code: with T = RelationApp("r2",[Variable("v4"),Variable("v4")]),
x = "v4", t = Constant("a"), substitution yields
RelationApp("r2",[Constant("a"),Constant("a")]), and find_substituted_term
then raises (its merge step rejects two agreeing witnesses) instead of
returning t.  The law is the stated intent (spec §8, the method docstring,
and test_formula.py's find_substituted_term_unique tests), so this is a code
bug; the theorem evaluates the embedded code on the failing input. -/
theorem claim2_inverse_law_fails_on_code :
    Formula.substitute (.rel L0 "r2" [.var L0 "v4", .var L0 "v4"]) "v4" (.const L0 "a")
      = .ok (.rel L0 "r2" [.const L0 "a", .const L0 "a"])
    ∧ Formula.find_substituted_term
        (.rel L0 "r2" [.var L0 "v4", .var L0 "v4"])
        (.rel L0 "r2" [.const L0 "a", .const L0 "a"]) "v4"
      ≠ .ok (some (.const L0 "a")) := by
  exact ⟨by decide, by decide⟩

/-- Claim C3.  The claim states that for Quantified(v, body) versus
Quantified(v', body') with x ≠ v, find_substituted_term fails whenever
v ≠ v' and recurses into the bodies only when v = v'.  The code never
compares v with v': with pattern (AA v1)(= a a), result (AA v2)(= a a) and
x = "v3" it recurses into the bodies and reports no-constraint (None), even
though no substitution into the pattern can change its bound variable, so by
the method's own docstring it should raise.  The claim (and spec §4.3) is
the documented intent; the code omits the v = v' check.  This theorem
evaluates the embedded code at the failing input. -/
theorem claim3_bound_variable_mismatch_not_rejected :
    Formula.find_substituted_term
        (.all L0 "v1" (.eq L0 (.const L0 "a") (.const L0 "a")))
        (.all L0 "v2" (.eq L0 (.const L0 "a") (.const L0 "a"))) "v3"
      = .ok none
    ∧ (∀ s : Term,
        Formula.substitute (.all L0 "v1" (.eq L0 (.const L0 "a") (.const L0 "a"))) "v3" s
          ≠ .ok (.all L0 "v2" (.eq L0 (.const L0 "a") (.const L0 "a")))) := by
  constructor
  · decide
  · intro s h
    rw [Formula.substitute] at h
    split at h
    · exact absurd h (by simp)
    · split at h
      · exact absurd h (by simp)
      · rw [if_neg (by decide)] at h
        rw [except_bind_ok] at h
        obtain ⟨P', -, hmk⟩ := h
        rw [mkQuantifiedFormula_ok_iff] at hmk
        exact absurd hmk.2.2 (by simp)

-- Specification-side notions for claim C7: the parenthesis depth of a token
-- sequence (number of "(" minus number of ")"), and "i is the index of the
-- first occurrence of a binary connective at depth exactly 1".

def paren_depth : List String → Int
  | [] => 0
  | s :: rest =>
      (if s = "(" then (1 : Int) else if s = ")" then -1 else 0) + paren_depth rest

def is_first_top_level_connective (symbols : List String) (i : Nat) : Prop :=
  i < symbols.length
    ∧ symbols.getD i "" ∈ binary_logical_connectives
    ∧ paren_depth (symbols.take i) = 1
    ∧ ∀ k < i, ¬(symbols.getD k "" ∈ binary_logical_connectives
        ∧ paren_depth (symbols.take k) = 1)

theorem scan_connective_none_iff :
    ∀ (symbols : List String) (d : Int) (i : Nat),
      scan_connective symbols d i = none ↔
        ∀ j < symbols.length,
          ¬(symbols.getD j "" ∈ binary_logical_connectives
            ∧ d + paren_depth (symbols.take j) = 1) := by
  intro symbols
  induction symbols with
  | nil => intro d i; simp [scan_connective]
  | cons s rest ih =>
    intro d i
    have hsplit : ∀ (Q : Nat → Prop),
        (∀ j < rest.length + 1, Q j) ↔ Q 0 ∧ ∀ k < rest.length, Q (k + 1) := by
      intro Q
      constructor
      · intro h
        exact ⟨h 0 (by omega), fun k hk => h (k + 1) (by omega)⟩
      · rintro ⟨h0, hs⟩ j hj
        cases j with
        | zero => exact h0
        | succ k => exact hs k (by omega)
    rw [scan_connective]
    by_cases hp : s = "("
    · subst hp
      rw [if_pos (by simp), ih (d + 1) (i + 1)]
      rw [List.length_cons, hsplit]
      simp only [List.getD_cons_zero, List.getD_cons_succ, List.take_zero,
        List.take_succ_cons, paren_depth, if_pos rfl, if_true]
      constructor
      · intro h
        refine ⟨by simp [binary_logical_connectives], fun k hk => ?_⟩
        intro hcon
        exact (h k hk) ⟨hcon.1, by linarith [hcon.2]⟩
      · rintro ⟨-, h⟩ j hj
        intro hcon
        exact (h j hj) ⟨hcon.1, by linarith [hcon.2]⟩
    · by_cases hq : s = ")"
      · subst hq
        rw [if_neg (by simp), if_pos (by simp), ih (d - 1) (i + 1)]
        rw [List.length_cons, hsplit]
        simp only [List.getD_cons_zero, List.getD_cons_succ, List.take_zero,
          List.take_succ_cons, paren_depth, if_neg (by decide : ¬(")" : String) = "("),
          if_pos rfl, if_true]
        constructor
        · intro h
          refine ⟨by simp [binary_logical_connectives], fun k hk => ?_⟩
          intro hcon
          exact (h k hk) ⟨hcon.1, by linarith [hcon.2]⟩
        · rintro ⟨-, h⟩ j hj
          intro hcon
          exact (h j hj) ⟨hcon.1, by linarith [hcon.2]⟩
      · rw [if_neg (by simpa using hp), if_neg (by simpa using hq)]
        by_cases hc : binary_logical_connectives.contains s = true ∧ d = 1
        · rw [if_pos (by simp only [Bool.and_eq_true, beq_iff_eq]; exact hc)]
          constructor
          · intro h; exact absurd h (by simp)
          · intro h
            have := h 0 (by simp)
            rw [List.getD_cons_zero, List.take_zero] at this
            exact absurd ⟨by simpa using hc.1, by simp [paren_depth, hc.2]⟩ this
        · rw [if_neg (by simp only [Bool.and_eq_true, beq_iff_eq]; exact hc),
            ih d (i + 1)]
          rw [List.length_cons, hsplit]
          simp only [List.getD_cons_zero, List.getD_cons_succ, List.take_zero,
            List.take_succ_cons, paren_depth, if_neg hp, if_neg hq]
          constructor
          · intro h
            refine ⟨?_, fun k hk => ?_⟩
            · rintro ⟨hmem, hd⟩
              simp only [List.take_zero, paren_depth, add_zero] at hd
              exact hc ⟨by simpa using hmem, hd⟩
            · intro hcon
              exact (h k hk) ⟨hcon.1, by linarith [hcon.2]⟩
          · rintro ⟨-, h⟩ j hj
            intro hcon
            exact (h j hj) ⟨hcon.1, by linarith [hcon.2]⟩

theorem scan_connective_sound :
    ∀ (symbols : List String) (d : Int) (i r : Nat),
      scan_connective symbols d i = some r →
      ∃ j, r = i + j ∧ j < symbols.length
        ∧ symbols.getD j "" ∈ binary_logical_connectives
        ∧ d + paren_depth (symbols.take j) = 1
        ∧ ∀ k < j, ¬(symbols.getD k "" ∈ binary_logical_connectives
            ∧ d + paren_depth (symbols.take k) = 1) := by
  intro symbols
  induction symbols with
  | nil => intro d i r h; exact absurd h (by simp [scan_connective])
  | cons s rest ih =>
    intro d i r h
    rw [scan_connective] at h
    by_cases hp : s = "("
    · subst hp
      rw [if_pos (by simp)] at h
      obtain ⟨j, hr, hj, hmem, hdepth, hmin⟩ := ih (d + 1) (i + 1) r h
      refine ⟨j + 1, by omega, by simp only [List.length_cons]; omega,
        by rw [List.getD_cons_succ]; exact hmem, ?_, ?_⟩
      · simp only [List.take_succ_cons, paren_depth, if_pos rfl, if_true]
        linarith
      · intro k hk
        cases k with
        | zero => simp [binary_logical_connectives]
        | succ k' =>
          intro hcon
          rw [List.getD_cons_succ] at hcon
          have h2 := hcon.2
          simp only [List.take_succ_cons, paren_depth, if_pos rfl, if_true] at h2
          exact (hmin k' (by omega)) ⟨hcon.1, by linarith⟩
    · by_cases hq : s = ")"
      · subst hq
        rw [if_neg (by simp), if_pos (by simp)] at h
        obtain ⟨j, hr, hj, hmem, hdepth, hmin⟩ := ih (d - 1) (i + 1) r h
        refine ⟨j + 1, by omega, by simp only [List.length_cons]; omega,
          by rw [List.getD_cons_succ]; exact hmem, ?_, ?_⟩
        · simp only [List.take_succ_cons, paren_depth,
            if_neg (by decide : ¬(")" : String) = "("), if_pos rfl, if_true]
          linarith
        · intro k hk
          cases k with
          | zero => simp [binary_logical_connectives]
          | succ k' =>
            intro hcon
            rw [List.getD_cons_succ] at hcon
            have h2 := hcon.2
            simp only [List.take_succ_cons, paren_depth,
              if_neg (by decide : ¬(")" : String) = "("), if_pos rfl, if_true] at h2
            exact (hmin k' (by omega)) ⟨hcon.1, by linarith⟩
      · rw [if_neg (by simpa using hp), if_neg (by simpa using hq)] at h
        by_cases hc : binary_logical_connectives.contains s = true ∧ d = 1
        · rw [if_pos (by simp only [Bool.and_eq_true, beq_iff_eq]; exact hc)] at h
          have hr := Option.some.inj h
          refine ⟨0, by omega, by simp, by simpa using hc.1,
            by simp [paren_depth, hc.2], by omega⟩
        · rw [if_neg (by simp only [Bool.and_eq_true, beq_iff_eq]; exact hc)] at h
          obtain ⟨j, hr, hj, hmem, hdepth, hmin⟩ := ih d (i + 1) r h
          refine ⟨j + 1, by omega, by simp only [List.length_cons]; omega,
            by rw [List.getD_cons_succ]; exact hmem, ?_, ?_⟩
          · simp only [List.take_succ_cons, paren_depth, if_neg hp, if_neg hq]
            linarith
          · intro k hk
            cases k with
            | zero =>
              rintro ⟨hmem0, hdep0⟩
              rw [List.getD_cons_zero] at hmem0
              simp only [List.take_zero, paren_depth, add_zero] at hdep0
              exact hc ⟨by simpa using hmem0, hdep0⟩
            | succ k' =>
              intro hcon
              rw [List.getD_cons_succ] at hcon
              have h2 := hcon.2
              simp only [List.take_succ_cons, paren_depth, if_neg hp, if_neg hq] at h2
              exact (hmin k' (by omega)) ⟨hcon.1, by linarith⟩

theorem scan_connective_complete :
    ∀ (symbols : List String) (d : Int) (i : Nat) (j : Nat),
      j < symbols.length →
      symbols.getD j "" ∈ binary_logical_connectives →
      d + paren_depth (symbols.take j) = 1 →
      (∀ k < j, ¬(symbols.getD k "" ∈ binary_logical_connectives
          ∧ d + paren_depth (symbols.take k) = 1)) →
      scan_connective symbols d i = some (i + j) := by
  intro symbols
  induction symbols with
  | nil => intro d i j hj; exact absurd hj (by simp)
  | cons s rest ih =>
    intro d i j hj hmem hdep hmin
    rw [scan_connective]
    by_cases hp : s = "("
    · subst hp
      rw [if_pos (by simp)]
      cases j with
      | zero =>
        rw [List.getD_cons_zero] at hmem
        exact absurd hmem (by decide)
      | succ j' =>
        have hdep' : d + 1 + paren_depth (rest.take j') = 1 := by
          simp only [List.take_succ_cons, paren_depth, if_pos rfl, if_true] at hdep
          linarith
        have := ih (d + 1) (i + 1) j' (by simp only [List.length_cons] at hj; omega)
          (by rw [List.getD_cons_succ] at hmem; exact hmem) hdep'
          (fun k hk hcon => by
            refine (hmin (k + 1) (by omega)) ⟨by rw [List.getD_cons_succ]; exact hcon.1, ?_⟩
            simp only [List.take_succ_cons, paren_depth, if_pos rfl, if_true]
            linarith [hcon.2])
        rw [this]
        congr 1
        omega
    · by_cases hq : s = ")"
      · subst hq
        rw [if_neg (by simp), if_pos (by simp)]
        cases j with
        | zero =>
          rw [List.getD_cons_zero] at hmem
          exact absurd hmem (by decide)
        | succ j' =>
          have hdep' : d - 1 + paren_depth (rest.take j') = 1 := by
            simp only [List.take_succ_cons, paren_depth,
              if_neg (by decide : ¬(")" : String) = "("), if_pos rfl, if_true] at hdep
            linarith
          have := ih (d - 1) (i + 1) j' (by simp only [List.length_cons] at hj; omega)
            (by rw [List.getD_cons_succ] at hmem; exact hmem) hdep'
            (fun k hk hcon => by
              refine (hmin (k + 1) (by omega))
                ⟨by rw [List.getD_cons_succ]; exact hcon.1, ?_⟩
              simp only [List.take_succ_cons, paren_depth,
                if_neg (by decide : ¬(")" : String) = "("), if_pos rfl, if_true]
              linarith [hcon.2])
          rw [this]
          congr 1
          omega
      · rw [if_neg (by simpa using hp), if_neg (by simpa using hq)]
        by_cases hc : binary_logical_connectives.contains s = true ∧ d = 1
        · rw [if_pos (by simp only [Bool.and_eq_true, beq_iff_eq]; exact hc)]
          cases j with
          | zero => rfl
          | succ j' =>
            exact absurd ⟨(by simpa using hc.1), (by simp [paren_depth, hc.2])⟩
              (hmin 0 (by omega))
        · rw [if_neg (by simp only [Bool.and_eq_true, beq_iff_eq]; exact hc)]
          cases j with
          | zero =>
            rw [List.getD_cons_zero] at hmem
            simp only [List.take_zero, paren_depth, add_zero] at hdep
            exact absurd ⟨by simpa using hmem, hdep⟩ hc
          | succ j' =>
            have hdep' : d + paren_depth (rest.take j') = 1 := by
              simp only [List.take_succ_cons, paren_depth, if_neg hp, if_neg hq] at hdep
              linarith
            have := ih d (i + 1) j' (by simp only [List.length_cons] at hj; omega)
              (by rw [List.getD_cons_succ] at hmem; exact hmem) hdep'
              (fun k hk hcon => by
                refine (hmin (k + 1) (by omega))
                  ⟨by rw [List.getD_cons_succ]; exact hcon.1, ?_⟩
                simp only [List.take_succ_cons, paren_depth, if_neg hp, if_neg hq]
                linarith [hcon.2])
            rw [this]
            congr 1
            omega

theorem is_first_top_level_connective_unique {symbols : List String} {i i' : Nat}
    (h : is_first_top_level_connective symbols i)
    (h' : is_first_top_level_connective symbols i') : i = i' := by
  by_contra hne
  rcases Nat.lt_or_ge i i' with hlt | hge
  · exact (h'.2.2.2 i hlt) ⟨h.2.1, h.2.2.1⟩
  · have hlt : i' < i := by omega
    exact (h.2.2.2 i' hlt) ⟨h'.2.1, h'.2.2.1⟩

/-- Claim C7.  For every nonempty token sequence (every sequence the
compound-formula dispatcher hands to its binary-connective fallback has at
least the two tokens "(" and ")"), get_top_level_logical_connective returns
index i exactly when i is the first index whose token is one of
`|| && -> <->` at parenthesis depth exactly 1 (depth = #"(" minus #")" over
the tokens before i) and i is strictly interior to the bracketed span,
i.e. 2 ≤ i ≤ length - 3; in every other case — no such occurrence, or the
located index not interior — it raises a parse error. -/
theorem claim7_get_top_level_logical_connective (symbols : List String)
    (_hne : symbols ≠ []) (i : Nat) :
    get_top_level_logical_connective symbols = .ok i ↔
      (is_first_top_level_connective symbols i
        ∧ 2 ≤ i ∧ i + 3 ≤ symbols.length) := by
  unfold get_top_level_logical_connective
  cases hscan : scan_connective symbols 0 0 with
  | some r =>
    obtain ⟨j, hr, hj, hmem, hdep, hmin⟩ := scan_connective_sound symbols 0 0 r hscan
    have hrj : r = j := by omega
    subst hrj
    have hfirst : is_first_top_level_connective symbols r := by
      refine ⟨hj, hmem, by simpa using hdep, fun k hk => ?_⟩
      intro hcon
      exact (hmin k (by omega)) ⟨hcon.1, by simpa using hcon.2⟩
    simp only [Option.getD_some]
    split
    · rename_i hcond
      constructor
      · intro h
        have hri : r = i := Except.ok.inj h
        subst hri
        exact ⟨hfirst, by omega, by omega⟩
      · rintro ⟨hf, -, -⟩
        rw [is_first_top_level_connective_unique hfirst hf]
    · rename_i hcond
      constructor
      · intro h; exact absurd h (by simp)
      · rintro ⟨hf, h2, h3⟩
        have hri := is_first_top_level_connective_unique hfirst hf
        exact absurd (show 1 < r ∧ r < symbols.length - 2 by omega) hcond
  | none =>
    have hnone := (scan_connective_none_iff symbols 0 0).mp hscan
    simp only [Option.getD_none]
    split
    · rename_i hcond
      exact absurd hcond (by omega)
    · constructor
      · intro h; exact absurd h (by simp)
      · rintro ⟨hf, -, -⟩
        exact absurd ⟨hf.2.1, by simpa using hf.2.2.1⟩ (hnone i hf.1)

theorem claim7_witness :
    (["(", "=", "v1", "a", "||", "=", "v1", "b", ")"] : List String) ≠ []
    ∧ get_top_level_logical_connective ["(", "=", "v1", "a", "||", "=", "v1", "b", ")"]
        = .ok 4 :=
  ⟨by decide,
    (claim7_get_top_level_logical_connective
        ["(", "=", "v1", "a", "||", "=", "v1", "b", ")"] (by decide) 4).mpr
      ⟨by unfold is_first_top_level_connective; decide, by decide, by decide⟩⟩

theorem variable_free_in_formula_iff {F : Formula} {x : String} :
    F.variable_free_in_formula x = true ↔ x ∈ F.get_free_variables := by
  simp [Formula.variable_free_in_formula]

/-- Claim C5.  For a quantified formula (AA v)(P) over language L, a valid
variable x and a term t of the same language, is_substitutable returns true
exactly when x is not free in the body P, or v does not occur among the
variables of t and t is substitutable for x in P.  (Python's short-circuit
`not free or (v not in vars(t) and recurse)` appears in the embedding as the
nested conditional of Formula.is_substitutable: when x is not free in P the
vacuous case answers true without evaluating the rest.) -/
theorem claim5_quantified_is_substitutable (L : Language) (v : String) (P : Formula)
    (x : String) (t : Term)
    (hx : is_variable_symbol x = true) (ht : t.language = L) :
    Formula.is_substitutable (.all L v P) x t = .ok true ↔
      (x ∉ P.get_free_variables
        ∨ (v ∉ t.get_variable_symbols
            ∧ Formula.is_substitutable P x t = .ok true)) := by
  rw [Formula.is_substitutable]
  rw [if_neg (by simp [hx]), if_neg (by simp [ht])]
  by_cases hfree : P.variable_free_in_formula x = true
  · rw [if_pos hfree]
    rw [variable_free_in_formula_iff] at hfree
    by_cases hvmem : v ∈ t.get_variable_symbols
    · rw [if_pos hvmem]
      constructor
      · intro h
        exact absurd h (by simp)
      · rintro (hl | ⟨hr, -⟩)
        · exact absurd hfree hl
        · exact absurd hvmem hr
    · rw [if_neg hvmem]
      constructor
      · intro h
        exact Or.inr ⟨hvmem, h⟩
      · rintro (hl | ⟨-, hr⟩)
        · exact absurd hfree hl
        · exact hr
  · rw [if_neg hfree]
    refine iff_of_true rfl (Or.inl ?_)
    intro hmem
    exact hfree (variable_free_in_formula_iff.mpr hmem)

theorem claim5_witness :
    is_variable_symbol "v2" = true
    ∧ (Term.func L0 "f1" [Term.var L0 "v1"]).language = L0
    ∧ (Formula.is_substitutable (.all L0 "v1" (.eq L0 (.var L0 "v1") (.var L0 "v2")))
          "v2" (.func L0 "f1" [.var L0 "v1"]) = .ok true ↔
        ("v2" ∉ (Formula.eq L0 (.var L0 "v1") (.var L0 "v2")).get_free_variables
          ∨ ("v1" ∉ (Term.func L0 "f1" [Term.var L0 "v1"]).get_variable_symbols
              ∧ Formula.is_substitutable (.eq L0 (.var L0 "v1") (.var L0 "v2"))
                  "v2" (.func L0 "f1" [.var L0 "v1"]) = .ok true))) :=
  ⟨by decide, rfl,
    claim5_quantified_is_substitutable L0 "v1" (.eq L0 (.var L0 "v1") (.var L0 "v2"))
      "v2" (.func L0 "f1" [.var L0 "v1"]) (by decide) rfl⟩

-- Helper for C6 and C9: mapping a pointwise-successful substitution over an
-- argument list succeeds with the pointwise results.
theorem substitute_list_congr {x : String} {t : Term} :
    ∀ {as : List Term}, (∀ a ∈ as, Term.substitute a x t = .ok a) →
      Term.substitute_list x t as = .ok as := by
  intro as
  induction as with
  | nil => intro h; rw [Term.substitute_list]
  | cons a as ih =>
      intro h
      rw [Term.substitute_list]
      rw [h a (by simp)]
      rw [ih (fun b hb => h b (by simp [hb]))]
      rfl

theorem term_substitute_self {L : Language} {x : String}
    (hx : is_variable_symbol x = true) :
    ∀ {t : Term}, Term.wf L t → Term.substitute t x (.var L x) = .ok t := by
  intro t hwf
  induction hwf with
  | var v hv =>
      rw [Term.substitute]
      rw [if_neg (by simp [hx]), if_neg (by simp [Term.language])]
      by_cases hxv : x = v
      · rw [if_pos (by simp [hxv]), hxv]
      · rw [if_neg (by simp [hxv])]
        rw [mkVariableTerm, if_neg (by simp [hv])]
  | const c hc =>
      rw [Term.substitute]
      rw [if_neg (by simp [hx]), if_neg (by simp [Term.language])]
      rw [mkConstantTerm, if_neg (by simp [hc])]
  | func f args harity hmem ih =>
      rw [Term.substitute]
      rw [if_neg (by simp [hx]), if_neg (by simp [Term.language])]
      rw [substitute_list_congr ih]
      show mkFunctionTerm L f args = .ok (.func L f args)
      rw [mkFunctionTerm_ok_iff]
      exact ⟨harity, fun a ha => (hmem a ha).lang_eq, rfl⟩

theorem formula_substitute_self {L : Language} {x : String}
    (hx : is_variable_symbol x = true) :
    ∀ {F : Formula}, Formula.wf L F → Formula.substitute F x (.var L x) = .ok F := by
  intro F hwf
  induction hwf with
  | eq h1 h2 =>
      rw [Formula.substitute]
      rw [if_neg (by simp [hx]), if_neg (by simp [Term.language])]
      rw [term_substitute_self hx h1, term_substitute_self hx h2]
      show mkEqualityFormula _ _ _ = _
      rw [mkEqualityFormula_ok_iff]
      exact ⟨h1.lang_eq, h2.lang_eq, rfl⟩
  | rel R args harity hmem =>
      rw [Formula.substitute]
      rw [if_neg (by simp [hx]), if_neg (by simp [Term.language])]
      rw [substitute_list_congr (fun a ha => term_substitute_self hx (hmem a ha))]
      show mkRelationFormula _ _ _ = _
      rw [mkRelationFormula_ok_iff]
      exact ⟨harity, fun a ha => (hmem a ha).lang_eq, rfl⟩
  | neg hP ih =>
      rw [Formula.substitute]
      rw [if_neg (by simp [hx]), if_neg (by simp [Term.language])]
      rw [ih]
      show mkNegationFormula _ _ = _
      rw [mkNegationFormula_ok_iff]
      exact ⟨hP.flang_eq, rfl⟩
  | disj hP hQ ihP ihQ =>
      rw [Formula.substitute]
      rw [if_neg (by simp [hx]), if_neg (by simp [Term.language])]
      rw [ihP, ihQ]
      show mkDisjunctionFormula _ _ _ = _
      rw [mkDisjunctionFormula_ok_iff]
      exact ⟨hP.flang_eq, hQ.flang_eq, rfl⟩
  | all v hv hP ih =>
      rw [Formula.substitute]
      rw [if_neg (by simp [hx]), if_neg (by simp [Term.language])]
      by_cases hxv : x = v
      · rw [if_pos (by simp [hxv])]
        rw [mkQuantifiedFormula_ok_iff.mpr ⟨hP.flang_eq, hv, rfl⟩]
      · rw [if_neg (by simp [hxv])]
        rw [ih]
        show mkQuantifiedFormula _ _ _ = _
        rw [mkQuantifiedFormula_ok_iff.mpr ⟨hP.flang_eq, hv, rfl⟩]

/-- Claim C6.  For every well-constructed Term or Formula T over language L
and every variable symbol x, substituting the variable term Variable(x) for
x returns a tree structurally equal to T (Python: substitute(T, x,
VariableTerm(language, x)) == T). -/
theorem claim6_substitution_identity :
    (∀ (L : Language) (t : Term) (x : String), Term.wf L t →
      is_variable_symbol x = true → Term.substitute t x (.var L x) = .ok t)
    ∧ (∀ (L : Language) (F : Formula) (x : String), Formula.wf L F →
      is_variable_symbol x = true → Formula.substitute F x (.var L x) = .ok F) :=
  ⟨fun _ _ _ hwf hx => term_substitute_self hx hwf,
    fun _ _ _ hwf hx => formula_substitute_self hx hwf⟩

theorem claim6_witness :
    Term.substitute (.func L0 "f3" [.const L0 "a", .var L0 "v2", .var L0 "v1"])
        "v1" (.var L0 "v1")
      = .ok (.func L0 "f3" [.const L0 "a", .var L0 "v2", .var L0 "v1"]) :=
  claim6_substitution_identity.1 L0
    (.func L0 "f3" [.const L0 "a", .var L0 "v2", .var L0 "v1"]) "v1"
    (Term.wf.func "f3" _ (by decide) (by
      intro a ha
      simp only [List.mem_cons, List.mem_singleton] at ha
      rcases ha with rfl | rfl | rfl | h
      · exact Term.wf.const "a" (by decide)
      · exact Term.wf.var "v2" (by decide)
      · exact Term.wf.var "v1" (by decide)
      · exact absurd h (by simp)))
    (by decide)

theorem substitute_list_ok_of {L : Language} {x : String} {s : Term} :
    ∀ {as : List Term},
      (∀ a ∈ as, ∃ u, Term.substitute a x s = .ok u ∧ u.language = L) →
      ∃ as', Term.substitute_list x s as = .ok as'
        ∧ as'.length = as.length ∧ ∀ u ∈ as', u.language = L := by
  intro as
  induction as with
  | nil =>
      intro _
      exact ⟨[], by rw [Term.substitute_list], rfl, by simp⟩
  | cons a as ih =>
      intro h
      obtain ⟨u, hu, hul⟩ := h a (by simp)
      obtain ⟨as', hs', hlen, hall⟩ := ih (fun b hb => h b (by simp [hb]))
      refine ⟨u :: as', by rw [Term.substitute_list, hu, hs']; rfl, by simp [hlen], ?_⟩
      intro w hw
      rcases List.mem_cons.mp hw with rfl | hw'
      · exact hul
      · exact hall w hw'

theorem term_substitute_ok {L : Language} {x : String} {s : Term}
    (hx : is_variable_symbol x = true) (hs : s.language = L) :
    ∀ {t : Term}, Term.wf L t →
      ∃ u, Term.substitute t x s = .ok u ∧ u.language = L := by
  intro t hwf
  induction hwf with
  | var v hv =>
      rw [Term.substitute, if_neg (by simp [hx]), if_neg (by simp [hs])]
      by_cases hxv : x = v
      · rw [if_pos (by simp [hxv])]
        exact ⟨s, rfl, hs⟩
      · rw [if_neg (by simp [hxv]), mkVariableTerm, if_neg (by simp [hv])]
        exact ⟨_, rfl, rfl⟩
  | const c hc =>
      rw [Term.substitute, if_neg (by simp [hx]), if_neg (by simp [hs])]
      rw [mkConstantTerm, if_neg (by simp [hc])]
      exact ⟨_, rfl, rfl⟩
  | func f args harity hmem ih =>
      rw [Term.substitute, if_neg (by simp [hx]), if_neg (by simp [hs])]
      obtain ⟨as', h1, hlen, hall⟩ := substitute_list_ok_of ih
      rw [h1]
      refine ⟨.func L f as', ?_, rfl⟩
      show mkFunctionTerm L f as' = _
      rw [mkFunctionTerm_ok_iff]
      exact ⟨by rw [hlen]; exact harity, hall, rfl⟩

theorem formula_substitute_ok {L : Language} {x : String} {s : Term}
    (hx : is_variable_symbol x = true) (hs : s.language = L) :
    ∀ {F : Formula}, Formula.wf L F →
      ∃ G, Formula.substitute F x s = .ok G ∧ G.language = L := by
  intro F hwf
  induction hwf with
  | eq h1 h2 =>
      rw [Formula.substitute, if_neg (by simp [hx]), if_neg (by simp [hs])]
      obtain ⟨u1, hu1, hl1⟩ := term_substitute_ok hx hs h1
      obtain ⟨u2, hu2, hl2⟩ := term_substitute_ok hx hs h2
      rw [hu1, hu2]
      refine ⟨.eq L u1 u2, ?_, rfl⟩
      show mkEqualityFormula _ _ _ = _
      rw [mkEqualityFormula_ok_iff]
      exact ⟨hl1, hl2, rfl⟩
  | rel R args harity hmem =>
      rw [Formula.substitute, if_neg (by simp [hx]), if_neg (by simp [hs])]
      obtain ⟨as', h1, hlen, hall⟩ :=
        substitute_list_ok_of (fun a ha => term_substitute_ok hx hs (hmem a ha))
      rw [h1]
      refine ⟨.rel L R as', ?_, rfl⟩
      show mkRelationFormula _ _ _ = _
      rw [mkRelationFormula_ok_iff]
      exact ⟨by rw [hlen]; exact harity, hall, rfl⟩
  | neg hP ih =>
      rw [Formula.substitute, if_neg (by simp [hx]), if_neg (by simp [hs])]
      obtain ⟨G, hG, hGl⟩ := ih
      rw [hG]
      refine ⟨.neg L G, ?_, rfl⟩
      show mkNegationFormula _ _ = _
      rw [mkNegationFormula_ok_iff]
      exact ⟨hGl, rfl⟩
  | disj hP hQ ihP ihQ =>
      rw [Formula.substitute, if_neg (by simp [hx]), if_neg (by simp [hs])]
      obtain ⟨G1, hG1, hG1l⟩ := ihP
      obtain ⟨G2, hG2, hG2l⟩ := ihQ
      rw [hG1, hG2]
      refine ⟨.disj L G1 G2, ?_, rfl⟩
      show mkDisjunctionFormula _ _ _ = _
      rw [mkDisjunctionFormula_ok_iff]
      exact ⟨hG1l, hG2l, rfl⟩
  | all v hv hP ih =>
      rw [Formula.substitute, if_neg (by simp [hx]), if_neg (by simp [hs])]
      by_cases hxv : x = v
      · rw [if_pos (by simp [hxv])]
        refine ⟨_, mkQuantifiedFormula_ok_iff.mpr ⟨hP.flang_eq, hv, rfl⟩, rfl⟩
      · rw [if_neg (by simp [hxv])]
        obtain ⟨G, hG, hGl⟩ := ih
        rw [hG]
        refine ⟨.all L v G, ?_, rfl⟩
        show mkQuantifiedFormula _ _ _ = _
        rw [mkQuantifiedFormula_ok_iff]
        exact ⟨hGl, hv, rfl⟩

/-- Claim C9.  For every well-constructed Term or Formula over language L,
substitute(tree, x, t) raises an invalid-argument error exactly when x is
not a syntactically valid variable symbol or t's language differs from the
tree's language; in particular a Constant node, or a Quantified node whose
bound variable equals x, still raises on a violation rather than silently
returning (the checks run before the no-op branches). -/
theorem claim9_substitute_error_iff :
    (∀ (L : Language) (t : Term) (x : String) (s : Term), Term.wf L t →
      ((∃ e, Term.substitute t x s = .error e) ↔
        (is_variable_symbol x ≠ true ∨ s.language ≠ L)))
    ∧ (∀ (L : Language) (F : Formula) (x : String) (s : Term), Formula.wf L F →
      ((∃ e, Formula.substitute F x s = .error e) ↔
        (is_variable_symbol x ≠ true ∨ s.language ≠ L))) := by
  constructor
  · intro L t x s hwf
    constructor
    · rintro ⟨e, he⟩
      by_contra hcon
      push_neg at hcon
      obtain ⟨u, hu, -⟩ := term_substitute_ok hcon.1 hcon.2 hwf
      rw [hu] at he
      exact absurd he (by simp)
    · intro hcon
      by_cases hx : is_variable_symbol x = true
      · have hs : s.language ≠ L := by tauto
        cases hwf with
        | var v hv =>
            rw [Term.substitute, if_neg (by simp [hx]),
              if_pos (by simp [hs])]
            exact ⟨_, rfl⟩
        | const c hc =>
            rw [Term.substitute, if_neg (by simp [hx]),
              if_pos (by simp [hs])]
            exact ⟨_, rfl⟩
        | func f args harity hmem =>
            rw [Term.substitute, if_neg (by simp [hx]),
              if_pos (by simp [bne_iff_ne, hs])]
            exact ⟨_, rfl⟩
      · cases hwf with
        | var v hv =>
            rw [Term.substitute, if_pos (by simp [hx])]
            exact ⟨_, rfl⟩
        | const c hc =>
            rw [Term.substitute, if_pos (by simp [hx])]
            exact ⟨_, rfl⟩
        | func f args harity hmem =>
            rw [Term.substitute, if_pos (by simp [hx])]
            exact ⟨_, rfl⟩
  · intro L F x s hwf
    constructor
    · rintro ⟨e, he⟩
      by_contra hcon
      push_neg at hcon
      obtain ⟨G, hG, -⟩ := formula_substitute_ok hcon.1 hcon.2 hwf
      rw [hG] at he
      exact absurd he (by simp)
    · intro hcon
      by_cases hx : is_variable_symbol x = true
      · have hs : s.language ≠ L := by tauto
        cases hwf with
        | eq h1 h2 =>
            rw [Formula.substitute, if_neg (by simp [hx]),
              if_pos (by simp [hs])]
            exact ⟨_, rfl⟩
        | rel R args harity hmem =>
            rw [Formula.substitute, if_neg (by simp [hx]),
              if_pos (by simp [hs])]
            exact ⟨_, rfl⟩
        | neg hP =>
            rw [Formula.substitute, if_neg (by simp [hx]),
              if_pos (by simp [hs])]
            exact ⟨_, rfl⟩
        | disj hP hQ =>
            rw [Formula.substitute, if_neg (by simp [hx]),
              if_pos (by simp [hs])]
            exact ⟨_, rfl⟩
        | all v hv hP =>
            rw [Formula.substitute, if_neg (by simp [hx]),
              if_pos (by simp [hs])]
            exact ⟨_, rfl⟩
      · cases hwf with
        | eq h1 h2 =>
            rw [Formula.substitute, if_pos (by simp [hx])]
            exact ⟨_, rfl⟩
        | rel R args harity hmem =>
            rw [Formula.substitute, if_pos (by simp [hx])]
            exact ⟨_, rfl⟩
        | neg hP =>
            rw [Formula.substitute, if_pos (by simp [hx])]
            exact ⟨_, rfl⟩
        | disj hP hQ =>
            rw [Formula.substitute, if_pos (by simp [hx])]
            exact ⟨_, rfl⟩
        | all v hv hP =>
            rw [Formula.substitute, if_pos (by simp [hx])]
            exact ⟨_, rfl⟩

theorem claim9_witness :
    Term.wf L0 (.const L0 "a")
    ∧ (∃ e, Term.substitute (.const L0 "a") "x9" (.const L0 "b") = .error e) :=
  ⟨Term.wf.const "a" (by decide),
    (claim9_substitute_error_iff.1 L0 (.const L0 "a") "x9" (.const L0 "b")
        (Term.wf.const "a" (by decide))).mpr
      (Or.inl (by decide))⟩

-- Classification of find_substituted_term outcomes on well-constructed
-- inputs over one language: either a result is returned (a witness or
-- no-constraint) or the fixed "unsatisfiable substitution" error is raised.
-- In particular the pairwise argument recursion never runs off the end of
-- the result's argument list (no IndexError), because equal symbols force
-- equal arities and hence equal argument-list lengths.

theorem term_find_func_func {l l' : Language} {f f' x : String}
    {args args' : List Term} :
    Term.find_substituted_term (.func l f args) (.func l' f' args') x =
      (if (!(l == l')) = true then .error "t must be a term of the same language."
      else if (!(f == f')) = true then
        .error "The given substitution cannot be satisfied by any term."
      else do
        let candidates ← Term.find_substituted_term_list args args' x
        if candidates.all Option.isNone then .ok none
        else
          match candidates.filterMap id with
          | [c] => .ok (some c)
          | _ => .error "The given substitution cannot be satisfied by any term.") := by
  rw [Term.find_substituted_term]
  rfl

theorem formula_find_eq_eq {l l' : Language} {t1 t2 u1 u2 : Term} {x : String} :
    Formula.find_substituted_term (.eq l t1 t2) (.eq l' u1 u2) x =
      (if (!(l' == l)) = true then .error "f must be a formula of the same language."
      else do
        let candidate_one ← t1.find_substituted_term u1 x
        let candidate_two ← t2.find_substituted_term u2 x
        match candidate_one with
        | none => .ok candidate_two
        | some a =>
          match candidate_two with
          | none => .ok (some a)
          | some b =>
            if a == b then .ok (some a)
            else .error "The given substitution cannot be satisfied by any term.") := by
  rw [Formula.find_substituted_term]
  rfl

theorem formula_find_rel_rel {l l' : Language} {R R' x : String}
    {args args' : List Term} :
    Formula.find_substituted_term (.rel l R args) (.rel l' R' args') x =
      (if (!(l == l')) = true then .error "f must be a formula of the same language."
      else if (!(R == R')) = true then
        .error "The given substitution cannot be satisfied by any term."
      else do
        let candidates ← Term.find_substituted_term_list args args' x
        if candidates.all Option.isNone then .ok none
        else
          match candidates.filterMap id with
          | [c] => .ok (some c)
          | _ => .error "The given substitution cannot be satisfied by any term.") := by
  rw [Formula.find_substituted_term]
  rfl

theorem formula_find_neg_neg {l l' : Language} {P P' : Formula} {x : String} :
    Formula.find_substituted_term (.neg l P) (.neg l' P') x =
      if (!(l == l')) = true then .error "f must be a formula of the same language."
      else P.find_substituted_term P' x := by
  rw [Formula.find_substituted_term]
  rfl

theorem formula_find_disj_disj {l l' : Language} {P Q P' Q' : Formula} {x : String} :
    Formula.find_substituted_term (.disj l P Q) (.disj l' P' Q') x =
      (if (!(l' == l)) = true then .error "f must be a formula of the same language."
      else do
        let candidate_one ← P.find_substituted_term P' x
        let candidate_two ← Q.find_substituted_term Q' x
        match candidate_one with
        | none => .ok candidate_two
        | some a =>
          match candidate_two with
          | none => .ok (some a)
          | some b =>
            if a == b then .ok (some a)
            else .error "The given substitution cannot be satisfied by any term.") := by
  rw [Formula.find_substituted_term]
  rfl

theorem formula_find_all_all {l l' : Language} {v v' x : String} {P P' : Formula} :
    Formula.find_substituted_term (.all l v P) (.all l' v' P') x =
      if (!(l' == l)) = true then .error "f must be a formula of the same language."
      else if (v == x) = true then
        if (Formula.all l v P) == (Formula.all l' v' P') then .ok none
        else .error "The given substitution cannot be satisfied by any term."
      else P.find_substituted_term P' x := by
  rw [Formula.find_substituted_term]
  rfl

theorem find_list_classify {x : String} :
    ∀ {as bs : List Term}, as.length = bs.length →
      (∀ a ∈ as, ∀ b ∈ bs,
        (∃ r, Term.find_substituted_term a b x = .ok r)
          ∨ Term.find_substituted_term a b x
              = .error "The given substitution cannot be satisfied by any term.") →
      (∃ rs, Term.find_substituted_term_list as bs x = .ok rs)
        ∨ Term.find_substituted_term_list as bs x
            = .error "The given substitution cannot be satisfied by any term." := by
  intro as
  induction as with
  | nil =>
      intro bs _ _
      exact Or.inl ⟨[], by rw [Term.find_substituted_term_list]⟩
  | cons a as ih =>
      intro bs hlen h
      cases bs with
      | nil => exact absurd hlen (by simp)
      | cons b bs' =>
          rw [Term.find_substituted_term_list]
          rcases h a (by simp) b (by simp) with ⟨r, hr⟩ | herr
          · rw [hr]
            rcases ih (by simpa using hlen)
                (fun a' ha' b' hb' => h a' (by simp [ha']) b' (by simp [hb'])) with
              ⟨rs, hrs⟩ | herr2
            · rw [hrs]
              exact Or.inl ⟨r :: rs, rfl⟩
            · rw [herr2]
              exact Or.inr rfl
          · rw [herr]
            exact Or.inr rfl

theorem term_find_classify {L : Language} {x : String} :
    ∀ {u : Term}, Term.wf L u → ∀ {t : Term}, Term.wf L t →
      (∃ r, Term.find_substituted_term u t x = .ok r)
        ∨ Term.find_substituted_term u t x
            = .error "The given substitution cannot be satisfied by any term." := by
  intro u hwf
  induction hwf with
  | var v hv =>
      intro t ht
      rw [Term.find_substituted_term, if_neg (by simp [ht.lang_eq])]
      by_cases hvx : v = x
      · rw [if_pos (by simp [hvx])]
        exact Or.inl ⟨some t, rfl⟩
      · rw [if_neg (by simp [hvx])]
        by_cases heq : (Term.var L v) == t
        · rw [if_pos heq]
          exact Or.inl ⟨none, rfl⟩
        · rw [if_neg heq]
          exact Or.inr rfl
  | const c hc =>
      intro t ht
      rw [Term.find_substituted_term, if_neg (by simp [ht.lang_eq])]
      by_cases heq : (Term.const L c) == t
      · rw [if_pos heq]
        exact Or.inl ⟨none, rfl⟩
      · rw [if_neg heq]
        exact Or.inr rfl
  | func f args harity hmem ih =>
      intro t ht
      cases ht with
      | var v' hv' =>
          rw [Term.find_substituted_term, if_neg (by simp [Term.language])] <;>
            first
              | exact Or.inr rfl
              | (intros; simp_all)
      | const c' hc' =>
          rw [Term.find_substituted_term, if_neg (by simp [Term.language])] <;>
            first
              | exact Or.inr rfl
              | (intros; simp_all)
      | func f' args' harity' hmem' =>
          rw [term_find_func_func, if_neg (by simp)]
          by_cases hff : f = f'
          · rw [if_neg (by simp [hff])]
            have hlen : args.length = args'.length := by
              rw [hff] at harity
              rw [harity] at harity'
              exact Option.some.inj harity'
            rcases find_list_classify hlen
                (fun a ha b hb => ih a ha (hmem' b hb)) with ⟨rs, hrs⟩ | herr
            · rw [hrs]
              simp only [ok_bind]
              by_cases hall : rs.all Option.isNone
              · rw [if_pos hall]
                exact Or.inl ⟨none, rfl⟩
              · rw [if_neg hall]
                cases hfm : rs.filterMap id with
                | nil => exact Or.inr rfl
                | cons c cs =>
                    cases cs with
                    | nil => exact Or.inl ⟨some c, rfl⟩
                    | cons c2 cs2 => exact Or.inr rfl
            · rw [herr]
              exact Or.inr rfl
          · rw [if_pos (by simp [hff])]
            exact Or.inr rfl

theorem formula_find_classify {L : Language} {x : String} :
    ∀ {P : Formula}, Formula.wf L P → ∀ {G : Formula}, Formula.wf L G →
      (∃ r, Formula.find_substituted_term P G x = .ok r)
        ∨ Formula.find_substituted_term P G x
            = .error "The given substitution cannot be satisfied by any term." := by
  intro P hwf
  induction hwf with
  | eq h1 h2 =>
      intro G hG
      cases hG with
      | rel R' args' harity' hmem' =>
          rw [Formula.find_substituted_term, if_neg (by simp [Formula.language])] <;>
            first
              | exact Or.inr rfl
              | (intros; simp_all)
      | neg hP' =>
          rw [Formula.find_substituted_term, if_neg (by simp [Formula.language])] <;>
            first
              | exact Or.inr rfl
              | (intros; simp_all)
      | disj hP' hQ' =>
          rw [Formula.find_substituted_term, if_neg (by simp [Formula.language])] <;>
            first
              | exact Or.inr rfl
              | (intros; simp_all)
      | all v' hv' hP' =>
          rw [Formula.find_substituted_term, if_neg (by simp [Formula.language])] <;>
            first
              | exact Or.inr rfl
              | (intros; simp_all)
      | eq h1' h2' =>
          rw [formula_find_eq_eq, if_neg (by simp)]
          rcases @term_find_classify L x _ h1 _ h1' with ⟨r1, hr1⟩ | herr1
          · rcases @term_find_classify L x _ h2 _ h2' with ⟨r2, hr2⟩ | herr2
            · cases r1 with
              | none =>
                  refine Or.inl ⟨r2, ?_⟩
                  simp only [hr1, hr2, ok_bind]
              | some a =>
                  cases r2 with
                  | none =>
                      refine Or.inl ⟨some a, ?_⟩
                      simp only [hr1, hr2, ok_bind]
                  | some b =>
                      by_cases hab : a = b
                      · refine Or.inl ⟨some a, ?_⟩
                        simp only [hr1, hr2, ok_bind]
                        rw [if_pos (by simp [hab])]
                      · refine Or.inr ?_
                        simp only [hr1, hr2, ok_bind]
                        rw [if_neg (by simp [hab])]
            · refine Or.inr ?_
              simp only [hr1, herr2, ok_bind, error_bind]
          · refine Or.inr ?_
            simp only [herr1, error_bind]
  | rel R args harity hmem =>
      intro G hG
      cases hG with
      | eq h1' h2' =>
          rw [Formula.find_substituted_term, if_neg (by simp [Formula.language])] <;>
            first
              | exact Or.inr rfl
              | (intros; simp_all)
      | neg hP' =>
          rw [Formula.find_substituted_term, if_neg (by simp [Formula.language])] <;>
            first
              | exact Or.inr rfl
              | (intros; simp_all)
      | disj hP' hQ' =>
          rw [Formula.find_substituted_term, if_neg (by simp [Formula.language])] <;>
            first
              | exact Or.inr rfl
              | (intros; simp_all)
      | all v' hv' hP' =>
          rw [Formula.find_substituted_term, if_neg (by simp [Formula.language])] <;>
            first
              | exact Or.inr rfl
              | (intros; simp_all)
      | rel R' args' harity' hmem' =>
          rw [formula_find_rel_rel, if_neg (by simp)]
          by_cases hRR : R = R'
          · rw [if_neg (by simp [hRR])]
            have hlen : args.length = args'.length := by
              rw [hRR] at harity
              rw [harity] at harity'
              exact Option.some.inj harity'
            rcases find_list_classify hlen
                (fun a ha b hb =>
                  term_find_classify (hmem a ha) (hmem' b hb)) with ⟨rs, hrs⟩ | herr
            · rw [hrs]
              simp only [ok_bind]
              by_cases hall : rs.all Option.isNone
              · rw [if_pos hall]
                exact Or.inl ⟨none, rfl⟩
              · rw [if_neg hall]
                cases hfm : rs.filterMap id with
                | nil => exact Or.inr rfl
                | cons c cs =>
                    cases cs with
                    | nil => exact Or.inl ⟨some c, rfl⟩
                    | cons c2 cs2 => exact Or.inr rfl
            · rw [herr]
              exact Or.inr rfl
          · rw [if_pos (by simp [hRR])]
            exact Or.inr rfl
  | neg hP ih =>
      intro G hG
      cases hG with
      | eq h1' h2' =>
          rw [Formula.find_substituted_term, if_neg (by simp [Formula.language])] <;>
            first
              | exact Or.inr rfl
              | (intros; simp_all)
      | rel R' args' harity' hmem' =>
          rw [Formula.find_substituted_term, if_neg (by simp [Formula.language])] <;>
            first
              | exact Or.inr rfl
              | (intros; simp_all)
      | disj hP' hQ' =>
          rw [Formula.find_substituted_term, if_neg (by simp [Formula.language])] <;>
            first
              | exact Or.inr rfl
              | (intros; simp_all)
      | all v' hv' hP' =>
          rw [Formula.find_substituted_term, if_neg (by simp [Formula.language])] <;>
            first
              | exact Or.inr rfl
              | (intros; simp_all)
      | neg hP' =>
          rw [formula_find_neg_neg, if_neg (by simp)]
          exact ih hP'
  | disj hP hQ ihP ihQ =>
      intro G hG
      cases hG with
      | eq h1' h2' =>
          rw [Formula.find_substituted_term, if_neg (by simp [Formula.language])] <;>
            first
              | exact Or.inr rfl
              | (intros; simp_all)
      | rel R' args' harity' hmem' =>
          rw [Formula.find_substituted_term, if_neg (by simp [Formula.language])] <;>
            first
              | exact Or.inr rfl
              | (intros; simp_all)
      | neg hP' =>
          rw [Formula.find_substituted_term, if_neg (by simp [Formula.language])] <;>
            first
              | exact Or.inr rfl
              | (intros; simp_all)
      | all v' hv' hP' =>
          rw [Formula.find_substituted_term, if_neg (by simp [Formula.language])] <;>
            first
              | exact Or.inr rfl
              | (intros; simp_all)
      | disj hP' hQ' =>
          rw [formula_find_disj_disj, if_neg (by simp)]
          rcases ihP hP' with ⟨r1, hr1⟩ | herr1
          · rcases ihQ hQ' with ⟨r2, hr2⟩ | herr2
            · cases r1 with
              | none =>
                  refine Or.inl ⟨r2, ?_⟩
                  simp only [hr1, hr2, ok_bind]
              | some a =>
                  cases r2 with
                  | none =>
                      refine Or.inl ⟨some a, ?_⟩
                      simp only [hr1, hr2, ok_bind]
                  | some b =>
                      by_cases hab : a = b
                      · refine Or.inl ⟨some a, ?_⟩
                        simp only [hr1, hr2, ok_bind]
                        rw [if_pos (by simp [hab])]
                      · refine Or.inr ?_
                        simp only [hr1, hr2, ok_bind]
                        rw [if_neg (by simp [hab])]
            · refine Or.inr ?_
              simp only [hr1, herr2, ok_bind, error_bind]
          · refine Or.inr ?_
            simp only [herr1, error_bind]
  | all v hv hP ih =>
      intro G hG
      cases hG with
      | eq h1' h2' =>
          rw [Formula.find_substituted_term, if_neg (by simp [Formula.language])] <;>
            first
              | exact Or.inr rfl
              | (intros; simp_all)
      | rel R' args' harity' hmem' =>
          rw [Formula.find_substituted_term, if_neg (by simp [Formula.language])] <;>
            first
              | exact Or.inr rfl
              | (intros; simp_all)
      | neg hP' =>
          rw [Formula.find_substituted_term, if_neg (by simp [Formula.language])] <;>
            first
              | exact Or.inr rfl
              | (intros; simp_all)
      | disj hP' hQ' =>
          rw [Formula.find_substituted_term, if_neg (by simp [Formula.language])] <;>
            first
              | exact Or.inr rfl
              | (intros; simp_all)
      | all v' hv' hP' =>
          rw [formula_find_all_all, if_neg (by simp)]
          by_cases hvx : v = x
          · rw [if_pos (by simp [hvx])]
            split
            · exact Or.inl ⟨none, rfl⟩
            · exact Or.inr rfl
          · rw [if_neg (by simp [hvx])]
            exact ih hP'

-- A string whose first character differs from another string's first
-- character is a different string; used to separate the interpolated
-- construction error messages from the fixed unsatisfiable-substitution
-- message.

theorem string_ne_of_head {a b : String} (h : a.data.head? ≠ b.data.head?) : a ≠ b :=
  fun he => h (by rw [he])

theorem ne_unsat_of_head {a : String} (c : Char)
    (h1 : a.data.head? = some c) (hc : c ≠ 'T') :
    a ≠ "The given substitution cannot be satisfied by any term." := by
  apply string_ne_of_head
  intro hh
  rw [h1] at hh
  have h2 : ("The given substitution cannot be satisfied by any term." : String).data.head?
      = some 'T' := rfl
  rw [h2] at hh
  exact hc (Option.some.inj hh)

theorem mkFunctionTerm_ne_unsat :
    ∀ (L : Language) (f : String) (args : List Term),
      mkFunctionTerm L f args
        ≠ .error "The given substitution cannot be satisfied by any term." := by
  intro L f args he
  cases h : L.get_function_arity f with
  | none =>
      rw [mkFunctionTerm_none h] at he
      exact absurd (Except.error.inj he) (ne_unsat_of_head 'N' rfl (by decide))
  | some arity =>
      rw [mkFunctionTerm_some h] at he
      by_cases hlen : (args.length != arity) = true
      · rw [if_pos hlen] at he
        exact absurd (Except.error.inj he) (ne_unsat_of_head 'L' rfl (by decide))
      · rw [if_neg hlen] at he
        by_cases hany : (args.any fun t => t.language != L) = true
        · rw [if_pos hany] at he
          exact absurd (Except.error.inj he) (ne_unsat_of_head 'L' rfl (by decide))
        · rw [if_neg hany] at he
          cases he

theorem mkRelationFormula_ne_unsat :
    ∀ (L : Language) (R : String) (args : List Term),
      mkRelationFormula L R args
        ≠ .error "The given substitution cannot be satisfied by any term." := by
  intro L R args he
  cases h : L.get_relation_arity R with
  | none =>
      rw [mkRelationFormula_none h] at he
      exact absurd (Except.error.inj he) (ne_unsat_of_head 'N' rfl (by decide))
  | some arity =>
      rw [mkRelationFormula_some h] at he
      by_cases hlen : (args.length != arity) = true
      · rw [if_pos hlen] at he
        exact absurd (Except.error.inj he) (ne_unsat_of_head 'L' rfl (by decide))
      · rw [if_neg hlen] at he
        by_cases hany : (args.any fun t => t.language != L) = true
        · rw [if_pos hany] at he
          exact absurd (Except.error.inj he) (ne_unsat_of_head 'L' rfl (by decide))
        · rw [if_neg hany] at he
          cases he

theorem formula_find_language_mismatch :
    ∀ (P G : Formula) (x : String), G.language ≠ P.language →
      Formula.find_substituted_term P G x
        = .error "f must be a formula of the same language." := by
  intro P G x hL
  have hL' := Ne.symm hL
  cases P <;> cases G <;>
    simp_all [Formula.find_substituted_term, Formula.language]

/-- C8: `find_substituted_term` reports its structurally-incompatible and
inconsistent-witnesses outcomes with the single fixed error message
"The given substitution cannot be satisfied by any term." (on
well-constructed same-language inputs every raise carries exactly that
message), while the vocabulary/arity/malformed-argument validation errors of
the constructors (`mkFunctionTerm`, `mkRelationFormula`) and the
language-mismatch error of `find_substituted_term` itself never carry that
message, so a caller can distinguish the two failure kinds. -/
theorem claim8_unsat_error_distinct_from_construction_errors :
    (∀ (L : Language) (x : String) (P G : Formula), Formula.wf L P → Formula.wf L G →
        (∃ r, Formula.find_substituted_term P G x = .ok r)
          ∨ Formula.find_substituted_term P G x
              = .error "The given substitution cannot be satisfied by any term.")
      ∧ (∀ (P G : Formula) (x : String), G.language ≠ P.language →
            Formula.find_substituted_term P G x
              = .error "f must be a formula of the same language.")
      ∧ (∀ (L : Language) (f : String) (args : List Term),
            mkFunctionTerm L f args
              ≠ .error "The given substitution cannot be satisfied by any term.")
      ∧ (∀ (L : Language) (R : String) (args : List Term),
            mkRelationFormula L R args
              ≠ .error "The given substitution cannot be satisfied by any term.")
      ∧ "f must be a formula of the same language."
          ≠ "The given substitution cannot be satisfied by any term." := by
  refine ⟨?_, formula_find_language_mismatch, mkFunctionTerm_ne_unsat,
    mkRelationFormula_ne_unsat, by decide⟩
  intro L x P G hP hG
  exact @formula_find_classify L x P hP G hG

theorem claim8_witness :
    ((∃ r, Formula.find_substituted_term
          (Formula.eq L0 (Term.var L0 "v1") (Term.var L0 "v1"))
          (Formula.eq L0 (Term.const L0 "a") (Term.const L0 "a")) "v1" = .ok r)
        ∨ Formula.find_substituted_term
            (Formula.eq L0 (Term.var L0 "v1") (Term.var L0 "v1"))
            (Formula.eq L0 (Term.const L0 "a") (Term.const L0 "a")) "v1"
            = .error "The given substitution cannot be satisfied by any term.")
      ∧ mkFunctionTerm L0 "f9" []
          ≠ .error "The given substitution cannot be satisfied by any term." :=
  ⟨claim8_unsat_error_distinct_from_construction_errors.1 L0 "v1" _ _
      (Formula.wf.eq (Term.wf.var "v1" (by decide)) (Term.wf.var "v1" (by decide)))
      (Formula.wf.eq (Term.wf.const "a" (by decide)) (Term.wf.const "a" (by decide))),
    claim8_unsat_error_distinct_from_construction_errors.2.2.1 L0 "f9" []⟩

/-- C10: two well-constructed function (resp. relation) applications over the
same language with equal symbols have argument lists of equal length, and on
well-constructed same-language inputs `find_substituted_term` never raises
the out-of-range list-index error: the pairwise recursion over the two
argument lists never runs past the end of the result's argument list. -/
theorem claim10_equal_symbols_equal_arities_no_index_error :
    (∀ (L : Language) (f f' : String) (args args' : List Term),
        Term.wf L (.func L f args) → Term.wf L (.func L f' args') → f = f' →
          args.length = args'.length)
      ∧ (∀ (L : Language) (R R' : String) (args args' : List Term),
          Formula.wf L (.rel L R args) → Formula.wf L (.rel L R' args') → R = R' →
            args.length = args'.length)
      ∧ (∀ (L : Language) (x : String) (t u : Term), Term.wf L t → Term.wf L u →
          Term.find_substituted_term t u x ≠ .error "list index out of range")
      ∧ (∀ (L : Language) (x : String) (P G : Formula), Formula.wf L P → Formula.wf L G →
          Formula.find_substituted_term P G x ≠ .error "list index out of range") := by
  refine ⟨?_, ?_, ?_, ?_⟩
  · intro L f f' args args' h1 h2 hff
    cases h1 with
    | func _ _ ha _ =>
        cases h2 with
        | func _ _ ha' _ =>
            rw [hff] at ha
            rw [ha] at ha'
            exact Option.some.inj ha'
  · intro L R R' args args' h1 h2 hRR
    cases h1 with
    | rel _ _ ha _ =>
        cases h2 with
        | rel _ _ ha' _ =>
            rw [hRR] at ha
            rw [ha] at ha'
            exact Option.some.inj ha'
  · intro L x t u ht hu he
    rcases @term_find_classify L x t ht u hu with ⟨r, hr⟩ | herr
    · rw [hr] at he
      cases he
    · rw [herr] at he
      exact absurd (Except.error.inj he) (by decide)
  · intro L x P G hP hG he
    rcases @formula_find_classify L x P hP G hG with ⟨r, hr⟩ | herr
    · rw [hr] at he
      cases he
    · rw [herr] at he
      exact absurd (Except.error.inj he) (by decide)

theorem claim10_witness :
    Term.find_substituted_term (Term.func L0 "f1" [Term.var L0 "v1"])
        (Term.func L0 "f1" [Term.const L0 "a"]) "v1"
      ≠ .error "list index out of range" :=
  claim10_equal_symbols_equal_arities_no_index_error.2.2.1 L0 "v1" _ _
    (Term.wf.func "f1" [Term.var L0 "v1"] (by decide) (by
      intro a ha
      rw [List.mem_singleton] at ha
      rw [ha]
      exact Term.wf.var "v1" (by decide)))
    (Term.wf.func "f1" [Term.const L0 "a"] (by decide) (by
      intro a ha
      rw [List.mem_singleton] at ha
      rw [ha]
      exact Term.wf.const "a" (by decide)))

-- ===== C4: unique readability of renders and the parse/render round trip ====

-- List.lookup membership
theorem lookup_mem : ∀ {l : List (String × Nat)} {s : String} {n : Nat},
    l.lookup s = some n → (s, n) ∈ l := by
  intro l
  induction l with
  | nil => intro s n h; cases h
  | cons p rest ih =>
      intro s n h
      obtain ⟨a, b⟩ := p
      rw [List.lookup_cons] at h
      cases hk : (s == a) with
      | true =>
          rw [hk] at h
          have hs : s = a := by simpa using hk
          have hn : b = n := by simpa using h
          subst hs
          subst hn
          exact List.mem_cons_self _ _
      | false =>
          rw [hk] at h
          exact List.mem_cons_of_mem _ (ih (by simpa using h))

theorem variable_not_valid {s : String} (h : is_variable_symbol s = true) :
    is_valid_nonlogical_symbol s = false := by
  unfold is_valid_nonlogical_symbol
  simp [h]

theorem valid_not_variable {s : String} (h : is_valid_nonlogical_symbol s = true) :
    is_variable_symbol s = false := by
  unfold is_valid_nonlogical_symbol at h
  simp only [Bool.and_eq_true, Bool.not_eq_true'] at h
  exact h.1.2

theorem valid_not_common {s : String} (h : is_valid_nonlogical_symbol s = true) :
    COMMON_SYMBOLS.contains s = false ∧ SHORTHAND_SYMBOLS.contains s = false := by
  unfold is_valid_nonlogical_symbol at h
  simp only [Bool.and_eq_true, Bool.not_eq_true'] at h
  exact ⟨h.1.1.1, h.2⟩

theorem constant_symbol_valid {L : Language} (hL : L.wf) {c : String}
    (h : L.is_constant_symbol c = true) : is_valid_nonlogical_symbol c = true := by
  have hmem : c ∈ L.constants := by simpa [Language.is_constant_symbol] using h
  exact (hL.2.1 c hmem).1

theorem function_symbol_facts {L : Language} (hL : L.wf) {f : String} {n : Nat}
    (h : L.get_function_arity f = some n) :
    is_valid_nonlogical_symbol f = true ∧ 0 < n := by
  have hmem := lookup_mem h
  exact ⟨(hL.2.2.1 _ hmem).1, (hL.2.2.1 _ hmem).2.2⟩

theorem relation_symbol_facts {L : Language} (hL : L.wf) {R : String} {n : Nat}
    (h : L.get_relation_arity R = some n) :
    is_valid_nonlogical_symbol R = true ∧ 0 < n := by
  have hmem := lookup_mem h
  exact ⟨(hL.2.2.2 _ hmem).1, (hL.2.2.2 _ hmem).2.2⟩

-- A symbol that is not a valid non-logical symbol (variables, parentheses,
-- connectives, quantifiers, "=") is not in any of the language's vocabularies.
theorem not_valid_lookups {L : Language} (hL : L.wf) {s : String}
    (h : is_valid_nonlogical_symbol s = false) :
    L.is_constant_symbol s = false ∧ L.get_function_arity s = none
      ∧ L.get_relation_arity s = none := by
  refine ⟨?_, ?_, ?_⟩
  · by_contra hc
    rw [Bool.not_eq_false] at hc
    rw [constant_symbol_valid hL hc] at h
    cases h
  · cases hf : L.get_function_arity s with
    | none => rfl
    | some n =>
        rw [(function_symbol_facts hL hf).1] at h
        cases h
  · cases hr : L.get_relation_arity s with
    | none => rfl
    | some n =>
        rw [(relation_symbol_facts hL hr).1] at h
        cases h

theorem variable_lookups {L : Language} (hL : L.wf) {s : String}
    (h : is_variable_symbol s = true) :
    L.is_constant_symbol s = false ∧ L.get_function_arity s = none
      ∧ L.get_relation_arity s = none :=
  not_valid_lookups hL (variable_not_valid h)

-- Constant symbols are not function symbols (disjointness of the vocabulary).
theorem const_not_function {L : Language} (hL : L.wf) {c : String}
    (h : L.is_constant_symbol c = true) : L.get_function_arity c = none := by
  cases hf : L.get_function_arity c with
  | none => rfl
  | some n =>
      have hmemc : c ∈ L.constants := by simpa [Language.is_constant_symbol] using h
      have hmemf : c ∈ L.functions.map Prod.fst :=
        List.mem_map_of_mem Prod.fst (lookup_mem hf)
      have h1 : (L.constants ++ L.functions.map Prod.fst).Nodup := hL.1.of_append_left
      exact absurd hmemf (List.disjoint_of_nodup_append h1 hmemc)

-- Token weights for the Polish-notation unique-readability argument: a
-- function symbol of arity n weighs n - 1, every other symbol weighs -1.
def tokenWeight (L : Language) (s : String) : Int :=
  match L.get_function_arity s with
  | some n => (n : Int) - 1
  | none => -1

def weightSum (L : Language) (l : List String) : Int :=
  (l.map (tokenWeight L)).sum

theorem weightSum_nil {L : Language} : weightSum L [] = 0 := rfl

theorem weightSum_cons {L : Language} {s : String} {l : List String} :
    weightSum L (s :: l) = tokenWeight L s + weightSum L l := by
  simp [weightSum]

theorem weightSum_append {L : Language} {a b : List String} :
    weightSum L (a ++ b) = weightSum L a + weightSum L b := by
  simp [weightSum]

theorem Term.render_ne_nil : ∀ t : Term, t.render ≠ [] := by
  intro t
  cases t <;> simp [Term.render]

theorem render_list_cons {a : Term} {as : List Term} :
    Term.render_list (a :: as) = a.render ++ Term.render_list as := rfl

theorem render_list_ne_nil {args : List Term} (h : args ≠ []) :
    Term.render_list args ≠ [] := by
  cases args with
  | nil => exact absurd rfl h
  | cons a as =>
      rw [render_list_cons]
      simp [Term.render_ne_nil a]

theorem render_list_length_ge : ∀ args : List Term,
    args.length ≤ (Term.render_list args).length := by
  intro args
  induction args with
  | nil => simp [Term.render_list]
  | cons a as ih =>
      rw [render_list_cons]
      have h1 : 1 ≤ a.render.length :=
        List.length_pos.mpr (Term.render_ne_nil a)
      simp only [List.length_append, List.length_cons]
      omega

theorem render_list_length_mem {a : Term} : ∀ {args : List Term}, a ∈ args →
    a.render.length ≤ (Term.render_list args).length := by
  intro args
  induction args with
  | nil => intro h; cases h
  | cons b bs ih =>
      intro h
      rw [render_list_cons]
      rcases List.mem_cons.mp h with rfl | hmem
      · simp
      · have := ih hmem
        simp only [List.length_append]
        omega

theorem render_list_weightSum {L : Language} {args : List Term}
    (h : ∀ a ∈ args, weightSum L a.render = -1) :
    weightSum L (Term.render_list args) = -(args.length : Int) := by
  induction args with
  | nil => simp [Term.render_list, weightSum]
  | cons a as ih =>
      rw [render_list_cons, weightSum_append, h a (List.mem_cons_self a as),
        ih (fun b hb => h b (List.mem_cons_of_mem a hb))]
      simp only [List.length_cons]
      push_cast
      ring

theorem render_weightSum {L : Language} (hL : L.wf) :
    ∀ {t : Term}, Term.wf L t → weightSum L t.render = -1 := by
  intro t hwf
  induction hwf with
  | var v hv =>
      have := (variable_lookups hL hv).2.1
      simp [Term.render, weightSum, tokenWeight, this]
  | const c hc =>
      have := const_not_function hL hc
      simp [Term.render, weightSum, tokenWeight, this]
  | func f args ha hmem ih =>
      have hr : (Term.func L f args).render = f :: Term.render_list args := rfl
      rw [hr, weightSum_cons, render_list_weightSum ih]
      simp only [tokenWeight, ha]
      ring

theorem prefix_append_split {p X Y : List String} (h : p <+: X ++ Y) :
    p <+: X ∨ ∃ q, p = X ++ q ∧ q <+: Y := by
  by_cases hl : p.length ≤ X.length
  · exact Or.inl (List.prefix_of_prefix_length_le h (List.prefix_append X Y) hl)
  · right
    have hX : X <+: p :=
      List.prefix_of_prefix_length_le (List.prefix_append X Y) h (by omega)
    obtain ⟨q, rfl⟩ := hX
    refine ⟨q, rfl, ?_⟩
    obtain ⟨r, hr⟩ := h
    rw [List.append_assoc] at hr
    exact ⟨r, List.append_cancel_left hr⟩

theorem prefix_singleton {α : Type} {p : List α} {v : α}
    (hp : p <+: [v]) (hne : p ≠ [v]) : p = [] := by
  cases p with
  | nil => rfl
  | cons x xs =>
      obtain ⟨s, hs⟩ := hp
      simp only [List.cons_append] at hs
      injection hs with h1 h2
      obtain ⟨hxs, -⟩ := List.append_eq_nil.mp h2
      subst h1
      subst hxs
      exact absurd rfl hne

theorem render_list_prefix_weight {L : Language} :
    ∀ {args : List Term},
      (∀ a ∈ args, weightSum L a.render = -1) →
      (∀ a ∈ args, ∀ p, p <+: a.render → p ≠ a.render → 0 ≤ weightSum L p) →
      ∀ p, p <+: Term.render_list args → p ≠ Term.render_list args →
        -(args.length : Int) < weightSum L p := by
  intro args
  induction args with
  | nil =>
      intro hsum hpre p hp hne
      rw [show Term.render_list [] = [] from rfl] at hp hne
      exact absurd (List.prefix_nil.mp hp) hne
  | cons a as ih =>
      intro hsum hpre p hp hne
      rw [render_list_cons] at hp hne
      rcases prefix_append_split hp with hpa | ⟨q, rfl, hq⟩
      · by_cases hea : p = a.render
        · subst hea
          rw [hsum a (List.mem_cons_self a as)]
          cases as with
          | nil => exact absurd (by simp [Term.render_list]) hne
          | cons b bs => simp only [List.length_cons]; push_cast; omega
        · have h0 := hpre a (List.mem_cons_self a as) p hpa hea
          simp only [List.length_cons]
          push_cast
          omega
      · have hqne : q ≠ Term.render_list as := by
          intro he
          apply hne
          rw [he]
        have hrec := ih (fun b hb => hsum b (List.mem_cons_of_mem a hb))
          (fun b hb => hpre b (List.mem_cons_of_mem a hb)) q hq hqne
        rw [weightSum_append, hsum a (List.mem_cons_self a as)]
        simp only [List.length_cons]
        push_cast
        omega

theorem render_prefix_weight {L : Language} (hL : L.wf) :
    ∀ {t : Term}, Term.wf L t →
      ∀ p, p <+: t.render → p ≠ t.render → 0 ≤ weightSum L p := by
  intro t hwf
  induction hwf with
  | var v hv =>
      intro p hp hne
      rw [prefix_singleton hp hne]
      simp [weightSum]
  | const c hc =>
      intro p hp hne
      rw [prefix_singleton hp hne]
      simp [weightSum]
  | func f args ha hmem ih =>
      intro p hp hne
      have hr : (Term.func L f args).render = f :: Term.render_list args := rfl
      rw [hr] at hp hne
      cases p with
      | nil => simp [weightSum]
      | cons x xs =>
          obtain ⟨s, hs⟩ := hp
          simp only [List.cons_append] at hs
          injection hs with h1 h2
          subst h1
          have hxs : xs <+: Term.render_list args := ⟨s, h2⟩
          have hxsne : xs ≠ Term.render_list args := by
            intro he
            apply hne
            rw [he]
          have hlt := render_list_prefix_weight
            (fun a hA => render_weightSum hL (hmem a hA)) ih xs hxs hxsne
          rw [weightSum_cons]
          simp only [tokenWeight, ha]
          omega

theorem render_prefix_free {L : Language} (hL : L.wf) {t u : Term}
    (ht : Term.wf L t) (hu : Term.wf L u) (h : t.render <+: u.render) :
    t.render = u.render := by
  by_contra hne
  have h0 := render_prefix_weight hL hu t.render h hne
  rw [render_weightSum hL ht] at h0
  omega

theorem render_list_inj {L : Language} (hL : L.wf) :
    ∀ {args args' : List Term},
      (∀ a ∈ args, ∀ u : Term, Term.wf L u → a.render = u.render → a = u) →
      (∀ a ∈ args, Term.wf L a) → (∀ a ∈ args', Term.wf L a) →
      Term.render_list args = Term.render_list args' → args = args' := by
  intro args
  induction args with
  | nil =>
      intro args' hinj hw hw' h
      cases args' with
      | nil => rfl
      | cons b bs =>
          rw [show Term.render_list [] = [] from rfl, render_list_cons] at h
          exact absurd h.symm (by simp [Term.render_ne_nil b])
  | cons a as ih =>
      intro args' hinj hw hw' h
      cases args' with
      | nil =>
          rw [render_list_cons, show Term.render_list [] = [] from rfl] at h
          exact absurd h (by simp [Term.render_ne_nil a])
      | cons b bs =>
          rw [render_list_cons, render_list_cons] at h
          have hwa := hw a (List.mem_cons_self a as)
          have hwb := hw' b (List.mem_cons_self b bs)
          have hpa : a.render <+: b.render ++ Term.render_list bs :=
            h ▸ List.prefix_append a.render (Term.render_list as)
          have hab : a.render = b.render := by
            rcases le_total a.render.length b.render.length with hl | hl
            · exact render_prefix_free hL hwa hwb
                (List.prefix_of_prefix_length_le hpa
                  (List.prefix_append b.render (Term.render_list bs)) hl)
            · exact (render_prefix_free hL hwb hwa
                (List.prefix_of_prefix_length_le
                  (List.prefix_append b.render (Term.render_list bs)) hpa hl)).symm
          have hae : a = b := hinj a (List.mem_cons_self a as) b hwb hab
          subst hae
          have htail : Term.render_list as = Term.render_list bs :=
            List.append_cancel_left h
          rw [ih (fun c hc u hu hr => hinj c (List.mem_cons_of_mem a hc) u hu hr)
            (fun c hc => hw c (List.mem_cons_of_mem a hc))
            (fun c hc => hw' c (List.mem_cons_of_mem a hc)) htail]

theorem render_inj {L : Language} (hL : L.wf) :
    ∀ {t : Term}, Term.wf L t → ∀ {u : Term}, Term.wf L u →
      t.render = u.render → t = u := by
  intro t hwf
  induction hwf with
  | var v hv =>
      intro u hu h
      cases hu with
      | var v' hv' =>
          have : v = v' := by simpa [Term.render] using h
          rw [this]
      | const c hc =>
          have hvc : v = c := by simpa [Term.render] using h
          subst hvc
          rw [valid_not_variable (constant_symbol_valid hL hc)] at hv
          cases hv
      | func f args ha hm =>
          have hpos := (function_symbol_facts hL ha).2
          have hne : args ≠ [] := by
            intro he
            simp [he] at hpos
          simp only [Term.render] at h
          injection h with h1 h2
          exact absurd h2.symm (render_list_ne_nil hne)
  | const c hc =>
      intro u hu h
      cases hu with
      | var v' hv' =>
          have hvc : c = v' := by simpa [Term.render] using h
          subst hvc
          rw [valid_not_variable (constant_symbol_valid hL hc)] at hv'
          cases hv'
      | const c' hc' =>
          have : c = c' := by simpa [Term.render] using h
          rw [this]
      | func f args ha hm =>
          have hpos := (function_symbol_facts hL ha).2
          have hne : args ≠ [] := by
            intro he
            simp [he] at hpos
          simp only [Term.render] at h
          injection h with h1 h2
          exact absurd h2.symm (render_list_ne_nil hne)
  | func f args ha hmem ih =>
      intro u hu h
      cases hu with
      | var v' hv' =>
          have hpos := (function_symbol_facts hL ha).2
          have hne : args ≠ [] := by
            intro he
            simp [he] at hpos
          simp only [Term.render] at h
          injection h with h1 h2
          exact absurd h2 (render_list_ne_nil hne)
      | const c' hc' =>
          have hpos := (function_symbol_facts hL ha).2
          have hne : args ≠ [] := by
            intro he
            simp [he] at hpos
          simp only [Term.render] at h
          injection h with h1 h2
          exact absurd h2 (render_list_ne_nil hne)
      | func f' args' ha' hm' =>
          simp only [Term.render] at h
          injection h with h1 h2
          subst h1
          have : args = args' :=
            render_list_inj hL (fun c hc u hu hr => ih c hc hu hr) hmem hm' h2
          rw [this]

theorem firstOk_ok_imp {α β : Type} {msg : String} {att : α → Except String β} :
    ∀ {l : List α} {b : β}, firstOk msg att l = .ok b → ∃ a ∈ l, att a = .ok b := by
  intro l
  induction l with
  | nil => intro b h; cases h
  | cons a as ih =>
      intro b h
      cases ha : att a with
      | ok r =>
          simp only [firstOk, ha] at h
          exact ⟨a, List.mem_cons_self a as, by rw [ha]; exact h⟩
      | error e =>
          simp only [firstOk, ha] at h
          obtain ⟨x, hx, hxx⟩ := ih h
          exact ⟨x, List.mem_cons_of_mem a hx, hxx⟩

theorem firstOk_eq_ok {α β : Type} {msg : String} {att : α → Except String β} {b : β} :
    ∀ {l : List α}, (∀ a ∈ l, ∀ r, att a = .ok r → r = b) →
      (∃ a ∈ l, att a = .ok b) → firstOk msg att l = .ok b := by
  intro l
  induction l with
  | nil =>
      intro _ hex
      obtain ⟨a, ha, -⟩ := hex
      cases ha
  | cons a as ih =>
      intro huniq hex
      cases ha : att a with
      | ok r =>
          have hr : r = b := huniq a (List.mem_cons_self a as) r ha
          subst hr
          simp only [firstOk, ha]
      | error e =>
          simp only [firstOk, ha]
          apply ih (fun x hx => huniq x (List.mem_cons_of_mem a hx))
          obtain ⟨x, hx, hxx⟩ := hex
          rcases List.mem_cons.mp hx with rfl | hx'
          · rw [ha] at hxx
            cases hxx
          · exact ⟨x, hx', hxx⟩

theorem parse_slices_exact {L : Language} {p : List String → Except String Term}
    (hp : ∀ s t, p s = .ok t → s = t.render ∧ Term.wf L t) :
    ∀ (c : List Nat) (symbols : List String) (start : Nat) (ts : List Term),
      parse_slices p symbols start c = .ok ts →
      Term.render_list ts = symbols.drop start ∧ (∀ u ∈ ts, Term.wf L u)
        ∧ ts.length = c.length + 1 := by
  intro c
  induction c with
  | nil =>
      intro symbols start ts h
      rw [parse_slices] at h
      obtain ⟨t, hpt, hok⟩ := except_bind_ok.mp h
      have hts : ts = [t] := (Except.ok.inj hok).symm
      subst hts
      obtain ⟨hrt, hwt⟩ := hp _ _ hpt
      refine ⟨?_, ?_, rfl⟩
      · rw [render_list_cons, show Term.render_list [] = [] from rfl,
          List.append_nil, ← hrt]
      · intro u hu
        rw [List.mem_singleton.mp hu]
        exact hwt
  | cons e rest ih =>
      intro symbols start ts h
      rw [parse_slices] at h
      obtain ⟨t, hpt, h2⟩ := except_bind_ok.mp h
      obtain ⟨ts', hps, hok⟩ := except_bind_ok.mp h2
      have hts : ts = t :: ts' := (Except.ok.inj hok).symm
      subst hts
      obtain ⟨hrt, hwt⟩ := hp _ _ hpt
      obtain ⟨hrl, hwl, hlen⟩ := ih symbols e ts' hps
      have hlt : start < e := by
        by_contra hge
        push_neg at hge
        have h0 : e - start = 0 := by omega
        rw [h0, List.take_zero] at hrt
        exact Term.render_ne_nil t hrt.symm
      refine ⟨?_, ?_, by simp [hlen]⟩
      · have hdd : (symbols.drop start).drop (e - start) = symbols.drop e := by
          rw [List.drop_drop]
          congr 1
          omega
        rw [render_list_cons, hrl, ← hrt, ← hdd]
        exact List.take_append_drop _ _
      · intro u hu
        rcases List.mem_cons.mp hu with rfl | hu'
        · exact hwt
        · exact hwl u hu'

theorem string_to_term_aux_exact {L : Language} :
    ∀ (fuel : Nat) (symbols : List String) (t : Term),
      string_to_term_aux L fuel symbols = .ok t →
      symbols = t.render ∧ Term.wf L t := by
  intro fuel
  induction fuel with
  | zero =>
      intro s t h
      cases h
  | succ f ih =>
      intro symbols t h
      cases symbols with
      | nil => simp [string_to_term_aux] at h
      | cons s rest =>
          cases rest with
          | nil =>
              simp only [string_to_term_aux] at h
              split at h
              · obtain ⟨hv, rfl⟩ := mkVariableTerm_ok_iff.mp h
                exact ⟨rfl, Term.wf.var s hv⟩
              · split at h
                · obtain ⟨hc, rfl⟩ := mkConstantTerm_ok_iff.mp h
                  exact ⟨rfl, Term.wf.const s hc⟩
                · exact absurd h (by simp)
          | cons s2 rest2 =>
              simp only [string_to_term_aux] at h
              cases harit : L.get_function_arity s with
              | none =>
                  simp only [harit] at h
                  exact absurd h (by simp)
              | some n =>
                  simp only [harit] at h
                  split at h
                  · exact absurd h (by simp)
                  · split at h
                    · obtain ⟨t1, h1, h2⟩ := except_bind_ok.mp h
                      obtain ⟨hr1, hw1⟩ := ih _ _ h1
                      obtain ⟨hlk, hlang, rfl⟩ := mkFunctionTerm_ok_iff.mp h2
                      refine ⟨?_, ?_⟩
                      · show s :: s2 :: rest2 = Term.render (Term.func L s [t1])
                        rw [show Term.render (Term.func L s [t1])
                              = s :: Term.render_list [t1] from rfl,
                          render_list_cons, show Term.render_list [] = [] from rfl,
                          List.append_nil, ← hr1]
                        rfl
                      · refine Term.wf.func s [t1] hlk ?_
                        intro a ha
                        rw [List.mem_singleton.mp ha]
                        exact hw1
                    · obtain ⟨c, hc, hatt⟩ := firstOk_ok_imp h
                      obtain ⟨ts, hps, hmk⟩ := except_bind_ok.mp hatt
                      obtain ⟨hrl, hwl, -⟩ :=
                        parse_slices_exact (fun s' t' h' => ih s' t' h') c _ 1 ts hps
                      obtain ⟨hlk, hlang, rfl⟩ := mkFunctionTerm_ok_iff.mp hmk
                      refine ⟨?_, Term.wf.func s ts hlk hwl⟩
                      show s :: s2 :: rest2 = Term.render (Term.func L s ts)
                      rw [show Term.render (Term.func L s ts)
                            = s :: Term.render_list ts from rfl, hrl]
                      rfl

-- The split-point list that carves symbols[start:] into the renders of the
-- given terms (the successful candidate inside string_to_term's firstOk loop).
def renderSplits (start : Nat) : List Term → List Nat
  | [] => []
  | [_] => []
  | a :: rest => (start + a.render.length) :: renderSplits (start + a.render.length) rest

theorem renderSplits_cons₂ {a b : Term} {bs : List Term} {start : Nat} :
    renderSplits start (a :: b :: bs)
      = (start + a.render.length) :: renderSplits (start + a.render.length) (b :: bs) := rfl

theorem renderSplits_mem_bounds : ∀ (args : List Term) (start e : Nat),
    e ∈ renderSplits start args →
      start < e ∧ e < start + (Term.render_list args).length := by
  intro args
  induction args with
  | nil =>
      intro start e h
      simp [renderSplits] at h
  | cons a as ih =>
      intro start e h
      cases as with
      | nil => simp [renderSplits] at h
      | cons b bs =>
          rw [renderSplits_cons₂] at h
          have hra : 0 < a.render.length := List.length_pos.mpr (Term.render_ne_nil a)
          have hrbs : 0 < (Term.render_list (b :: bs)).length :=
            List.length_pos.mpr (render_list_ne_nil (by simp))
          rcases List.mem_cons.mp h with rfl | hmem
          · refine ⟨by omega, ?_⟩
            rw [render_list_cons, List.length_append]
            omega
          · have hb := ih (start + a.render.length) e hmem
            refine ⟨by omega, ?_⟩
            rw [render_list_cons, List.length_append]
            omega

theorem renderSplits_pairwise : ∀ (args : List Term) (start : Nat),
    List.Pairwise (· < ·) (renderSplits start args) := by
  intro args
  induction args with
  | nil => intro start; simp [renderSplits]
  | cons a as ih =>
      intro start
      cases as with
      | nil => simp [renderSplits]
      | cons b bs =>
          rw [renderSplits_cons₂]
          exact List.pairwise_cons.mpr
            ⟨fun e he => (renderSplits_mem_bounds _ _ e he).1, ih _⟩

theorem renderSplits_length : ∀ (args : List Term) (start : Nat), args ≠ [] →
    (renderSplits start args).length + 1 = args.length := by
  intro args
  induction args with
  | nil => intro start h; exact absurd rfl h
  | cons a as ih =>
      intro start h
      cases as with
      | nil => simp [renderSplits]
      | cons b bs =>
          rw [renderSplits_cons₂]
          have := ih (start + a.render.length) (by simp)
          simp only [List.length_cons] at this ⊢
          omega

theorem parse_slices_complete {p : List String → Except String Term} :
    ∀ (args : List Term) (symbols : List String) (start : Nat),
      args ≠ [] →
      symbols.drop start = Term.render_list args →
      (∀ a ∈ args, p a.render = .ok a) →
      parse_slices p symbols start (renderSplits start args) = .ok args := by
  intro args
  induction args with
  | nil =>
      intro _ _ h
      exact absurd rfl h
  | cons a as ih =>
      intro symbols start hne hdrop hp
      cases as with
      | nil =>
          rw [show renderSplits start [a] = [] from rfl, parse_slices]
          rw [hdrop, render_list_cons, show Term.render_list [] = [] from rfl,
            List.append_nil, hp a (List.mem_cons_self a [])]
          rfl
      | cons b bs =>
          rw [renderSplits_cons₂, parse_slices]
          have hk : start + a.render.length - start = a.render.length := by omega
          have hslice : (symbols.drop start).take (start + a.render.length - start)
              = a.render := by
            rw [hk, hdrop, render_list_cons, List.take_left]
          have hdrop2 : symbols.drop (start + a.render.length)
              = Term.render_list (b :: bs) := by
            have h1 : symbols.drop (start + a.render.length)
                = (symbols.drop start).drop a.render.length := by
              rw [List.drop_drop]
            rw [h1, hdrop, render_list_cons, List.drop_left]
          rw [hslice, hp a (List.mem_cons_self a (b :: bs)), ok_bind]
          rw [ih symbols (start + a.render.length) (by simp) hdrop2
            (fun x hx => hp x (List.mem_cons_of_mem a hx)), ok_bind]

theorem mem_combinations_of_sublist :
    ∀ {pool c : List Nat} (k : Nat), List.Sublist c pool → c.length = k →
      c ∈ combinations k pool := by
  intro pool
  induction pool with
  | nil =>
      intro c k h hk
      rw [List.sublist_nil.mp h] at hk ⊢
      rw [← hk]
      simp [combinations]
  | cons a as ih =>
      intro c k hsub hk
      cases hsub with
      | cons _ h =>
          cases k with
          | zero =>
              rw [List.length_eq_zero.mp hk]
              simp [combinations]
          | succ k' =>
              rw [show combinations (k' + 1) (a :: as)
                  = (combinations k' as).map (fun c => a :: c)
                    ++ combinations (k' + 1) as from rfl]
              exact List.mem_append_right _ (ih (k' + 1) h hk)
      | cons₂ _ h =>
          rename_i c'
          rw [List.length_cons] at hk
          rw [← hk]
          rw [show combinations (c'.length + 1) (a :: as)
              = (combinations c'.length as).map (fun c => a :: c)
                ++ combinations (c'.length + 1) as from rfl]
          exact List.mem_append_left _
            (List.mem_map_of_mem _ (ih c'.length h rfl))

theorem sublist_range'_of_pairwise :
    ∀ (c : List Nat) (lo hi : Nat), List.Pairwise (· < ·) c →
      (∀ e ∈ c, lo ≤ e ∧ e < hi) → List.Sublist c (List.range' lo (hi - lo)) := by
  intro c
  induction c with
  | nil => simp
  | cons x rest ih =>
      intro lo hi hpw hb
      obtain ⟨hlo, hhi⟩ := hb x (List.mem_cons_self x rest)
      have hpw' := List.pairwise_cons.mp hpw
      have hrest : List.Sublist rest (List.range' (x + 1) (hi - (x + 1))) :=
        ih (x + 1) hi hpw'.2
          (fun e he => ⟨hpw'.1 e he, (hb e (List.mem_cons_of_mem x he)).2⟩)
      have hsplit : List.range' lo (hi - lo)
          = List.range' lo (x - lo) ++ List.range' x (hi - x) := by
        have h2 := List.range'_append lo (x - lo) (hi - x) 1
        simp only [one_mul, Nat.mul_one] at h2
        rw [show lo + (x - lo) = x from by omega,
          show hi - x + (x - lo) = hi - lo from by omega] at h2
        exact h2.symm
      have hxr : List.range' x (hi - x) = x :: List.range' (x + 1) (hi - x - 1) := by
        rw [show hi - x = (hi - x - 1) + 1 from by omega]
        exact List.range'_succ x (hi - x - 1) 1
      rw [hsplit, hxr]
      refine List.Sublist.trans ?_ (List.sublist_append_right _ _)
      rw [show hi - x - 1 = hi - (x + 1) from by omega]
      exact List.Sublist.cons₂ x hrest

theorem string_to_term_aux_roundtrip {L : Language} (hL : L.wf) :
    ∀ {t : Term}, Term.wf L t →
      ∀ fuel, t.render.length < fuel →
        string_to_term_aux L fuel t.render = .ok t := by
  intro t hwf
  induction hwf with
  | var v hv =>
      intro fuel hfuel
      cases fuel with
      | zero => exact absurd hfuel (by omega)
      | succ f =>
          show string_to_term_aux L (f + 1) [v] = .ok (.var L v)
          simp only [string_to_term_aux]
          rw [if_pos hv]
          exact mkVariableTerm_ok_iff.mpr ⟨hv, rfl⟩
  | const c hc =>
      intro fuel hfuel
      cases fuel with
      | zero => exact absurd hfuel (by omega)
      | succ f =>
          show string_to_term_aux L (f + 1) [c] = .ok (.const L c)
          simp only [string_to_term_aux]
          have hcv : is_variable_symbol c = false :=
            valid_not_variable (constant_symbol_valid hL hc)
          rw [if_neg (by simp [hcv]), if_pos hc]
          exact mkConstantTerm_ok_iff.mpr ⟨hc, rfl⟩
  | func f args ha hmem ih =>
      intro fuel hfuel
      have hpos := (function_symbol_facts hL ha).2
      have hane : args ≠ [] := by
        intro he
        simp [he] at hpos
      have hrender : (Term.func L f args).render = f :: Term.render_list args := rfl
      obtain ⟨w, ws, hws⟩ : ∃ w ws, Term.render_list args = w :: ws := by
        cases hrl : Term.render_list args with
        | nil => exact absurd hrl (render_list_ne_nil hane)
        | cons w ws => exact ⟨w, ws, rfl⟩
      have hrlen : (Term.render_list args).length = ws.length + 1 := by
        rw [hws]
        rfl
      have hlen_ge : args.length ≤ (Term.render_list args).length :=
        render_list_length_ge args
      have hflen : (Term.func L f args).render.length = ws.length + 2 := by
        rw [hrender, List.length_cons, hrlen]
      cases fuel with
      | zero => exact absurd hfuel (by omega)
      | succ fl =>
          rw [hflen] at hfuel
          rw [hrender, hws]
          simp only [string_to_term_aux, ha]
          rw [if_neg (by simp only [List.length_cons]; omega)]
          by_cases h1 : args.length = 1
          · rw [if_pos (by simp [h1])]
            obtain ⟨a, rfl⟩ : ∃ a, args = [a] := by
              cases args with
              | nil => simp at h1
              | cons a as =>
                  cases as with
                  | nil => exact ⟨a, rfl⟩
                  | cons b bs => simp at h1
            have hdrop : w :: ws = a.render := by
              rw [← hws, render_list_cons,
                show Term.render_list [] = [] from rfl, List.append_nil]
            have hd1 : List.drop 1 (f :: w :: ws) = a.render := hdrop
            rw [hd1, ih a (List.mem_cons_self a []) fl (by
              rw [← hd1]
              simp only [List.length_drop, List.length_cons]
              omega), ok_bind]
            exact mkFunctionTerm_ok_iff.mpr
              ⟨ha, fun u hu => by
                rw [List.mem_singleton.mp hu]
                exact Term.wf.lang_eq (hmem a (List.mem_cons_self a [])),
                rfl⟩
          · rw [if_neg (by simp [h1])]
            apply firstOk_eq_ok
            · intro c hcmem r hr
              obtain ⟨ts, hps, hmk⟩ := except_bind_ok.mp hr
              obtain ⟨hrl, hwl, -⟩ := parse_slices_exact
                (fun s' t' h' => string_to_term_aux_exact fl s' t' h') c _ 1 ts hps
              obtain ⟨hlk, hlang, rfl⟩ := mkFunctionTerm_ok_iff.mp hmk
              have hwr : Term.wf L (Term.func L f ts) := Term.wf.func f ts hlk hwl
              have hwt : Term.wf L (Term.func L f args) := Term.wf.func f args ha hmem
              apply render_inj hL hwr hwt
              show f :: Term.render_list ts = f :: Term.render_list args
              rw [hrl, hws]
              rfl
            · refine ⟨renderSplits 1 args, ?_, ?_⟩
              · apply mem_combinations_of_sublist
                · rw [show pyRange 2 (f :: w :: ws).length
                      = List.range' 2 ((f :: w :: ws).length - 2) from rfl]
                  apply sublist_range'_of_pairwise _ 2 ((f :: w :: ws).length)
                    (renderSplits_pairwise args 1)
                  intro e he
                  have hb := renderSplits_mem_bounds args 1 e he
                  simp only [List.length_cons]
                  omega
                · have := renderSplits_length args 1 hane
                  omega
              · show (do
                    let args' ← parse_slices (string_to_term_aux L fl)
                      (f :: w :: ws) 1 (renderSplits 1 args)
                    mkFunctionTerm L f args') = .ok (Term.func L f args)
                rw [parse_slices_complete args (f :: w :: ws) 1 hane hws.symm
                  (fun a hA => ih a hA fl (by
                    have := render_list_length_mem hA
                    omega)), ok_bind]
                exact mkFunctionTerm_ok_iff.mpr
                  ⟨ha, fun u hu => Term.wf.lang_eq (hmem u hu), rfl⟩

theorem string_to_term_roundtrip {L : Language} (hL : L.wf) {t : Term}
    (h : Term.wf L t) : string_to_term L t.render = .ok t :=
  string_to_term_aux_roundtrip hL h (t.render.length + 1) (by omega)

theorem string_to_term_exact {L : Language} {symbols : List String} {t : Term}
    (h : string_to_term L symbols = .ok t) :
    symbols = t.render ∧ Term.wf L t :=
  string_to_term_aux_exact (symbols.length + 1) symbols t h

theorem mem_render_list {s : String} : ∀ {args : List Term},
    s ∈ Term.render_list args → ∃ a ∈ args, s ∈ a.render := by
  intro args
  induction args with
  | nil => intro h; simp [Term.render_list] at h
  | cons a as ih =>
      intro h
      rw [render_list_cons] at h
      rcases List.mem_append.mp h with h1 | h2
      · exact ⟨a, List.mem_cons_self a as, h1⟩
      · obtain ⟨b, hb, hs⟩ := ih h2
        exact ⟨b, List.mem_cons_of_mem a hb, hs⟩

-- Every token of a term render is a variable symbol or a valid non-logical
-- symbol of the language.
theorem term_render_plain {L : Language} (hL : L.wf) :
    ∀ {t : Term}, Term.wf L t → ∀ s ∈ t.render,
      is_variable_symbol s = true ∨ is_valid_nonlogical_symbol s = true := by
  intro t hwf
  induction hwf with
  | var v hv =>
      intro s hs
      rw [List.mem_singleton.mp hs]
      exact Or.inl hv
  | const c hc =>
      intro s hs
      rw [List.mem_singleton.mp hs]
      exact Or.inr (constant_symbol_valid hL hc)
  | func f args ha hmem ih =>
      intro s hs
      rw [show (Term.func L f args).render = f :: Term.render_list args from rfl] at hs
      rcases List.mem_cons.mp hs with rfl | hs'
      · exact Or.inr (function_symbol_facts hL ha).1
      · obtain ⟨a, hA, hsa⟩ := mem_render_list hs'
        exact ih a hA s hsa

-- A plain token (variable or valid non-logical symbol) is none of the
-- grammar's special tokens.
theorem plain_ne {s : String}
    (h : is_variable_symbol s = true ∨ is_valid_nonlogical_symbol s = true) :
    s ≠ "(" ∧ s ≠ ")" ∧ s ≠ "!!" ∧ s ≠ "AA" ∧ s ≠ "EE" ∧ s ≠ "="
      ∧ s ∉ binary_logical_connectives := by
  refine ⟨?_, ?_, ?_, ?_, ?_, ?_, ?_⟩
  · intro he
    subst he
    rcases h with h | h <;> exact absurd h (by decide)
  · intro he
    subst he
    rcases h with h | h <;> exact absurd h (by decide)
  · intro he
    subst he
    rcases h with h | h <;> exact absurd h (by decide)
  · intro he
    subst he
    rcases h with h | h <;> exact absurd h (by decide)
  · intro he
    subst he
    rcases h with h | h <;> exact absurd h (by decide)
  · intro he
    subst he
    rcases h with h | h <;> exact absurd h (by decide)
  · intro hmem
    simp only [binary_logical_connectives, List.mem_cons,
      List.mem_singleton, List.not_mem_nil, or_false] at hmem
    rcases hmem with rfl | rfl | rfl | rfl <;>
      (rcases h with h | h <;> exact absurd h (by decide))

theorem paren_depth_cons {s : String} {l : List String} :
    paren_depth (s :: l)
      = (if s = "(" then (1 : Int) else if s = ")" then -1 else 0)
        + paren_depth l := rfl

theorem paren_depth_append : ∀ {a b : List String},
    paren_depth (a ++ b) = paren_depth a + paren_depth b := by
  intro a
  induction a with
  | nil => intro b; simp [paren_depth]
  | cons s rest ih =>
      intro b
      rw [List.cons_append, paren_depth_cons, ih, paren_depth_cons]
      ring

theorem paren_depth_cons_plain {s : String} {l : List String}
    (h1 : s ≠ "(") (h2 : s ≠ ")") : paren_depth (s :: l) = paren_depth l := by
  rw [paren_depth_cons, if_neg h1, if_neg h2]
  ring

theorem paren_depth_cons_open {l : List String} :
    paren_depth ("(" :: l) = 1 + paren_depth l := by
  rw [paren_depth_cons, if_pos rfl]

theorem paren_depth_cons_close {l : List String} :
    paren_depth (")" :: l) = -1 + paren_depth l := by
  rw [paren_depth_cons, if_neg (by decide), if_pos rfl]

theorem paren_depth_plain : ∀ {l : List String},
    (∀ s ∈ l, s ≠ "(" ∧ s ≠ ")") → paren_depth l = 0 := by
  intro l
  induction l with
  | nil => intro _; rfl
  | cons s rest ih =>
      intro h
      have hs := h s (List.mem_cons_self s rest)
      rw [paren_depth_cons_plain hs.1 hs.2]
      exact ih (fun x hx => h x (List.mem_cons_of_mem s hx))

theorem term_render_depth {L : Language} (hL : L.wf) {t : Term}
    (hwf : Term.wf L t) : paren_depth t.render = 0 :=
  paren_depth_plain (fun s hs => by
    have := plain_ne (term_render_plain hL hwf s hs)
    exact ⟨this.1, this.2.1⟩)

theorem render_list_plain {L : Language} (hL : L.wf) {args : List Term}
    (hmem : ∀ a ∈ args, Term.wf L a) :
    ∀ s ∈ Term.render_list args,
      is_variable_symbol s = true ∨ is_valid_nonlogical_symbol s = true := by
  intro s hs
  obtain ⟨a, hA, hsa⟩ := mem_render_list hs
  exact term_render_plain hL (hmem a hA) s hsa

theorem prefix_cons_cases {α : Type} {p : List α} {x : α} {l : List α}
    (h : p <+: x :: l) : p = [] ∨ ∃ q, p = x :: q ∧ q <+: l := by
  cases p with
  | nil => exact Or.inl rfl
  | cons y q =>
      obtain ⟨s, hs⟩ := h
      rw [List.cons_append] at hs
      injection hs with h1 h2
      subst h1
      exact Or.inr ⟨q, rfl, ⟨s, h2⟩⟩

theorem append_cons_split {pre rest X Y : List String} {s : String}
    (h : pre ++ s :: rest = X ++ Y) :
    (∃ mid, X = pre ++ s :: mid) ∨ (∃ pre2, pre = X ++ pre2 ∧ pre2 ++ s :: rest = Y) := by
  by_cases hlen : X.length ≤ pre.length
  · right
    have hXfull : X <+: pre ++ s :: rest := h ▸ List.prefix_append X Y
    have hprefull : pre <+: pre ++ s :: rest := List.prefix_append pre (s :: rest)
    obtain ⟨pre2, rfl⟩ := List.prefix_of_prefix_length_le hXfull hprefull hlen
    rw [List.append_assoc] at h
    exact ⟨pre2, rfl, List.append_cancel_left h⟩
  · left
    push_neg at hlen
    have hps : pre ++ [s] <+: pre ++ s :: rest :=
      ⟨rest, by rw [List.append_assoc]; rfl⟩
    rw [h] at hps
    have hXfull : X <+: X ++ Y := List.prefix_append X Y
    have hsub : pre ++ [s] <+: X :=
      List.prefix_of_prefix_length_le hps hXfull
        (by rw [List.length_append, List.length_singleton]; omega)
    obtain ⟨mid, hmid⟩ := hsub
    rw [List.append_assoc] at hmid
    exact ⟨mid, hmid.symm⟩

-- Structural facts about formula renders: balanced parentheses, nonnegative
-- prefix depth, and every binary connective token occurs at depth at least 1.
theorem formula_render_balance {L : Language} (hL : L.wf) :
    ∀ {P : Formula}, Formula.wf L P →
      paren_depth P.render = 0
      ∧ (∀ p, p <+: P.render → 0 ≤ paren_depth p)
      ∧ (∀ pre s rest, P.render = pre ++ s :: rest →
          s ∈ binary_logical_connectives → 1 ≤ paren_depth pre) := by
  intro P hwf
  induction hwf with
  | eq h1 h2 =>
      rename_i t1 t2
      have hsh : (Formula.eq L t1 t2).render = "=" :: (t1.render ++ t2.render) := rfl
      have hplain : ∀ s ∈ t1.render ++ t2.render,
          is_variable_symbol s = true ∨ is_valid_nonlogical_symbol s = true := by
        intro s hs
        rcases List.mem_append.mp hs with h | h
        · exact term_render_plain hL h1 s h
        · exact term_render_plain hL h2 s h
      refine ⟨?_, ?_, ?_⟩
      · rw [hsh, paren_depth_cons_plain (by decide) (by decide)]
        exact paren_depth_plain (fun s hs =>
          ⟨(plain_ne (hplain s hs)).1, (plain_ne (hplain s hs)).2.1⟩)
      · intro p hp
        rw [hsh] at hp
        rcases prefix_cons_cases hp with rfl | ⟨q, rfl, hq⟩
        · decide
        · rw [paren_depth_cons_plain (by decide) (by decide)]
          rw [paren_depth_plain (fun s hs => by
            have := plain_ne (hplain s (hq.sublist.subset hs))
            exact ⟨this.1, this.2.1⟩)]
      · intro pre s rest heq hconn
        rw [hsh] at heq
        cases pre with
        | nil =>
            rw [List.nil_append] at heq
            injection heq with hs1 htl
            subst hs1
            exact absurd hconn (by decide)
        | cons x pre1 =>
            rw [List.cons_append] at heq
            injection heq with hx heq2
            have hmem : s ∈ t1.render ++ t2.render := by
              rw [heq2]
              exact List.mem_append_right pre1 (List.mem_cons_self s rest)
            exact absurd hconn (plain_ne (hplain s hmem)).2.2.2.2.2.2
  | rel R args harity hmem =>
      have hRplain : is_variable_symbol R = true ∨ is_valid_nonlogical_symbol R = true :=
        Or.inr (relation_symbol_facts hL harity).1
      have hsh : (Formula.rel L R args).render = R :: Term.render_list args := rfl
      refine ⟨?_, ?_, ?_⟩
      · rw [hsh, paren_depth_cons_plain (plain_ne hRplain).1 (plain_ne hRplain).2.1]
        exact paren_depth_plain (fun s hs => by
          have := plain_ne (render_list_plain hL hmem s hs)
          exact ⟨this.1, this.2.1⟩)
      · intro p hp
        rw [hsh] at hp
        rcases prefix_cons_cases hp with rfl | ⟨q, rfl, hq⟩
        · decide
        · rw [paren_depth_cons_plain (plain_ne hRplain).1 (plain_ne hRplain).2.1]
          rw [paren_depth_plain (fun s hs => by
            have := plain_ne (render_list_plain hL hmem s (hq.sublist.subset hs))
            exact ⟨this.1, this.2.1⟩)]
      · intro pre s rest heq hconn
        rw [hsh] at heq
        cases pre with
        | nil =>
            rw [List.nil_append] at heq
            injection heq with hs1 htl
            subst hs1
            exact absurd hconn (plain_ne hRplain).2.2.2.2.2.2
        | cons x pre1 =>
            rw [List.cons_append] at heq
            injection heq with hx heq2
            have hmems : s ∈ Term.render_list args := by
              rw [heq2]
              exact List.mem_append_right pre1 (List.mem_cons_self s rest)
            exact absurd hconn (plain_ne (render_list_plain hL hmem s hmems)).2.2.2.2.2.2
  | neg hP ih =>
      rename_i P1
      obtain ⟨ih1, ih2, ih3⟩ := ih
      have hsh : (Formula.neg L P1).render = "(" :: "!!" :: (P1.render ++ [")"]) := rfl
      refine ⟨?_, ?_, ?_⟩
      · rw [hsh, paren_depth_cons_open, paren_depth_cons_plain (by decide) (by decide),
          paren_depth_append, ih1]
        decide
      · intro p hp
        rw [hsh] at hp
        rcases prefix_cons_cases hp with rfl | ⟨q, rfl, hq⟩
        · decide
        · rcases prefix_cons_cases hq with rfl | ⟨q2, rfl, hq2⟩
          · decide
          · rw [paren_depth_cons_open, paren_depth_cons_plain (by decide) (by decide)]
            rcases prefix_append_split hq2 with hqa | ⟨q3, rfl, hq3⟩
            · have := ih2 q2 hqa
              omega
            · rw [paren_depth_append, ih1]
              rcases prefix_cons_cases hq3 with rfl | ⟨q4, rfl, hq4⟩
              · decide
              · rw [List.prefix_nil.mp hq4]
                decide
      · intro pre s rest heq hconn
        rw [hsh] at heq
        cases pre with
        | nil =>
            rw [List.nil_append] at heq
            injection heq with hs1 htl
            subst hs1
            exact absurd hconn (by decide)
        | cons x pre1 =>
            rw [List.cons_append] at heq
            injection heq with hx heq2
            subst hx
            cases pre1 with
            | nil =>
                rw [List.nil_append] at heq2
                injection heq2 with hs2 htl
                subst hs2
                exact absurd hconn (by decide)
            | cons y pre2 =>
                rw [List.cons_append] at heq2
                injection heq2 with hy heq3
                subst hy
                rw [paren_depth_cons_open, paren_depth_cons_plain (by decide) (by decide)]
                rcases append_cons_split heq3.symm with ⟨mid, hmid⟩ | ⟨pre3, rfl, hrest⟩
                · have := ih3 pre2 s mid hmid hconn
                  omega
                · rw [paren_depth_append, ih1]
                  cases pre3 with
                  | nil =>
                      rw [List.nil_append] at hrest
                      injection hrest with hs3 htl
                      subst hs3
                      exact absurd hconn (by decide)
                  | cons z pre4 =>
                      rw [List.cons_append] at hrest
                      injection hrest with hz hrest2
                      exact absurd hrest2 (by simp)
  | disj hP hQ ihP ihQ =>
      rename_i P1 Q1
      obtain ⟨ihP1, ihP2, ihP3⟩ := ihP
      obtain ⟨ihQ1, ihQ2, ihQ3⟩ := ihQ
      have hsh : (Formula.disj L P1 Q1).render
          = "(" :: (P1.render ++ "||" :: (Q1.render ++ [")"])) := rfl
      refine ⟨?_, ?_, ?_⟩
      · rw [hsh, paren_depth_cons_open, paren_depth_append, ihP1,
          paren_depth_cons_plain (by decide) (by decide), paren_depth_append, ihQ1]
        decide
      · intro p hp
        rw [hsh] at hp
        rcases prefix_cons_cases hp with rfl | ⟨q, rfl, hq⟩
        · decide
        · rw [paren_depth_cons_open]
          rcases prefix_append_split hq with hqa | ⟨q2, rfl, hq2⟩
          · have := ihP2 q hqa
            omega
          · rw [paren_depth_append, ihP1]
            rcases prefix_cons_cases hq2 with rfl | ⟨q3, rfl, hq3⟩
            · decide
            · rw [paren_depth_cons_plain (by decide) (by decide)]
              rcases prefix_append_split hq3 with hqb | ⟨q4, rfl, hq4⟩
              · have := ihQ2 q3 hqb
                omega
              · rw [paren_depth_append, ihQ1]
                rcases prefix_cons_cases hq4 with rfl | ⟨q5, rfl, hq5⟩
                · decide
                · rw [List.prefix_nil.mp hq5]
                  decide
      · intro pre s rest heq hconn
        rw [hsh] at heq
        cases pre with
        | nil =>
            rw [List.nil_append] at heq
            injection heq with hs1 htl
            subst hs1
            exact absurd hconn (by decide)
        | cons x pre1 =>
            rw [List.cons_append] at heq
            injection heq with hx heq2
            subst hx
            rw [paren_depth_cons_open]
            rcases append_cons_split heq2.symm with ⟨mid, hmid⟩ | ⟨pre2, rfl, hrest⟩
            · have := ihP3 pre1 s mid hmid hconn
              omega
            · rw [paren_depth_append, ihP1]
              cases pre2 with
              | nil => decide
              | cons y pre3 =>
                  rw [List.cons_append] at hrest
                  injection hrest with hy hrest2
                  subst hy
                  rw [paren_depth_cons_plain (by decide) (by decide)]
                  rcases append_cons_split hrest2 with ⟨mid, hmid⟩ | ⟨pre4, rfl, hrest3⟩
                  · have := ihQ3 pre3 s mid hmid hconn
                    omega
                  · rw [paren_depth_append, ihQ1]
                    cases pre4 with
                    | nil =>
                        rw [List.nil_append] at hrest3
                        injection hrest3 with hs4 htl
                        subst hs4
                        exact absurd hconn (by decide)
                    | cons z pre5 =>
                        rw [List.cons_append] at hrest3
                        injection hrest3 with hz hrest4
                        exact absurd hrest4 (by simp)
  | all v hv hP ih =>
      rename_i P1
      obtain ⟨ih1, ih2, ih3⟩ := ih
      have hvp := plain_ne (Or.inl hv)
      have hsh : (Formula.all L v P1).render
          = "(" :: "AA" :: v :: ")" :: "(" :: (P1.render ++ [")"]) := rfl
      refine ⟨?_, ?_, ?_⟩
      · rw [hsh, paren_depth_cons_open, paren_depth_cons_plain (by decide) (by decide),
          paren_depth_cons_plain hvp.1 hvp.2.1, paren_depth_cons_close,
          paren_depth_cons_open, paren_depth_append, ih1]
        decide
      · intro p hp
        rw [hsh] at hp
        rcases prefix_cons_cases hp with rfl | ⟨q, rfl, hq⟩
        · decide
        · rw [paren_depth_cons_open]
          rcases prefix_cons_cases hq with rfl | ⟨q2, rfl, hq2⟩
          · decide
          · rw [paren_depth_cons_plain (by decide) (by decide)]
            rcases prefix_cons_cases hq2 with rfl | ⟨q3, rfl, hq3⟩
            · decide
            · rw [paren_depth_cons_plain hvp.1 hvp.2.1]
              rcases prefix_cons_cases hq3 with rfl | ⟨q4, rfl, hq4⟩
              · decide
              · rw [paren_depth_cons_close]
                rcases prefix_cons_cases hq4 with rfl | ⟨q5, rfl, hq5⟩
                · decide
                · rw [paren_depth_cons_open]
                  rcases prefix_append_split hq5 with hqa | ⟨q6, rfl, hq6⟩
                  · have := ih2 q5 hqa
                    omega
                  · rw [paren_depth_append, ih1]
                    rcases prefix_cons_cases hq6 with rfl | ⟨q7, rfl, hq7⟩
                    · decide
                    · rw [List.prefix_nil.mp hq7]
                      decide
      · intro pre s rest heq hconn
        rw [hsh] at heq
        cases pre with
        | nil =>
            rw [List.nil_append] at heq
            injection heq with hs1 htl
            subst hs1
            exact absurd hconn (by decide)
        | cons x pre1 =>
            rw [List.cons_append] at heq
            injection heq with hx heq2
            subst hx
            cases pre1 with
            | nil =>
                rw [List.nil_append] at heq2
                injection heq2 with hs2 htl
                subst hs2
                exact absurd hconn (by decide)
            | cons y pre2 =>
                rw [List.cons_append] at heq2
                injection heq2 with hy heq3
                subst hy
                cases pre2 with
                | nil =>
                    rw [List.nil_append] at heq3
                    injection heq3 with hs3 htl
                    subst hs3
                    exact absurd hconn hvp.2.2.2.2.2.2
                | cons z pre3 =>
                    rw [List.cons_append] at heq3
                    injection heq3 with hz heq4
                    subst hz
                    cases pre3 with
                    | nil =>
                        rw [List.nil_append] at heq4
                        injection heq4 with hs4 htl
                        subst hs4
                        exact absurd hconn (by decide)
                    | cons u pre4 =>
                        rw [List.cons_append] at heq4
                        injection heq4 with hu heq5
                        subst hu
                        cases pre4 with
                        | nil =>
                            rw [List.nil_append] at heq5
                            injection heq5 with hs5 htl
                            subst hs5
                            exact absurd hconn (by decide)
                        | cons u2 pre5 =>
                            rw [List.cons_append] at heq5
                            injection heq5 with hu2 heq6
                            subst hu2
                            rw [paren_depth_cons_open,
                              paren_depth_cons_plain (by decide) (by decide),
                              paren_depth_cons_plain hvp.1 hvp.2.1,
                              paren_depth_cons_close, paren_depth_cons_open]
                            rcases append_cons_split heq6.symm with ⟨mid, hmid⟩ | ⟨pre6, rfl, hrest⟩
                            · have := ih3 pre5 s mid hmid hconn
                              omega
                            · rw [paren_depth_append, ih1]
                              cases pre6 with
                              | nil =>
                                  rw [List.nil_append] at hrest
                                  injection hrest with hs6 htl
                                  subst hs6
                                  exact absurd hconn (by decide)
                              | cons u3 pre7 =>
                                  rw [List.cons_append] at hrest
                                  injection hrest with hu3 hrest2
                                  exact absurd hrest2 (by simp)

theorem getD_append_cons {X : List String} {s d : String} {r : List String} :
    (X ++ s :: r).getD X.length d = s := by
  rw [List.getD_append_right X (s :: r) d X.length (le_refl _)]
  simp

theorem getD_cons_succ {x : String} {l : List String} {n : Nat} {d : String} :
    (x :: l).getD (n + 1) d = l.getD n d := rfl

theorem list_decomp_getD {l : List String} {n : Nat} (h : n < l.length) :
    l = l.take n ++ l.getD n "" :: l.drop (n + 1) := by
  have h2 : l.drop n = l.getD n "" :: l.drop (n + 1) := by
    rw [List.drop_eq_getElem_cons h, List.getD_eq_getElem l "" h]
  conv_lhs => rw [← List.take_append_drop n l]
  rw [h2]

theorem take_append_of_le {X Y : List String} {n : Nat} (h : n ≤ X.length) :
    (X ++ Y).take n = X.take n := by
  rw [List.take_append_eq_append_take, show n - X.length = 0 from by omega,
    List.take_zero, List.append_nil]

theorem formula_render_length {L : Language} (hL : L.wf) {P : Formula}
    (h : Formula.wf L P) : 2 ≤ P.render.length := by
  cases h with
  | eq h1 h2 =>
      rename_i t1 t2
      have := List.length_pos.mpr (Term.render_ne_nil t1)
      rw [show (Formula.eq L t1 t2).render = "=" :: (t1.render ++ t2.render) from rfl]
      simp only [List.length_cons, List.length_append]
      omega
  | rel R args harity hmem =>
      have hpos : 0 < args.length := by
        have := (relation_symbol_facts hL harity).2
        omega
      have := render_list_length_ge args
      rw [show (Formula.rel L R args).render = R :: Term.render_list args from rfl]
      simp only [List.length_cons]
      omega
  | neg hP =>
      rename_i P1
      rw [show (Formula.neg L P1).render = "(" :: "!!" :: (P1.render ++ [")"]) from rfl]
      simp only [List.length_cons]
      omega
  | disj hP hQ =>
      rename_i P1 Q1
      rw [show (Formula.disj L P1 Q1).render
          = "(" :: (P1.render ++ "||" :: (Q1.render ++ [")"])) from rfl]
      simp only [List.length_cons, List.length_append]
      omega
  | all v hv hP =>
      rename_i P1
      rw [show (Formula.all L v P1).render
          = "(" :: "AA" :: v :: ")" :: "(" :: (P1.render ++ [")"]) from rfl]
      simp only [List.length_cons]
      omega

theorem formula_render_head_cases {L : Language} (hL : L.wf) {P : Formula}
    (h : Formula.wf L P) :
    P.render.getD 0 "" = "(" ∨ is_valid_nonlogical_symbol (P.render.getD 0 "") = true
      ∨ P.render.getD 0 "" = "=" := by
  cases h with
  | eq h1 h2 => exact Or.inr (Or.inr rfl)
  | rel R args harity hmem =>
      refine Or.inr (Or.inl ?_)
      rw [show (Formula.rel L R args).render.getD 0 "" = R from rfl]
      exact (relation_symbol_facts hL harity).1
  | neg hP => exact Or.inl rfl
  | disj hP hQ => exact Or.inl rfl
  | all v hv hP => exact Or.inl rfl

-- The index of the top-level connective of a rendered disjunction is the
-- position right after the left disjunct.
theorem disj_top_connective {L : Language} (hL : L.wf) {P1 Q1 : Formula}
    (hP : Formula.wf L P1) (hQ : Formula.wf L Q1) :
    get_top_level_logical_connective ((Formula.disj L P1 Q1).render)
      = .ok (P1.render.length + 1) := by
  have hsh : (Formula.disj L P1 Q1).render
      = "(" :: (P1.render ++ "||" :: (Q1.render ++ [")"])) := rfl
  obtain ⟨hbP1, hbP2, hbP3⟩ := formula_render_balance hL hP
  have hlenP := formula_render_length hL hP
  have hlenQ := formula_render_length hL hQ
  have hlen : (Formula.disj L P1 Q1).render.length
      = P1.render.length + Q1.render.length + 3 := by
    rw [hsh]
    simp only [List.length_cons, List.length_append, List.length_nil]
    omega
  have hscan : scan_connective ((Formula.disj L P1 Q1).render) 0 0
      = some (P1.render.length + 1) := by
    have := scan_connective_complete ((Formula.disj L P1 Q1).render) 0 0
      (P1.render.length + 1) (by omega)
      (by
        rw [hsh, getD_cons_succ, getD_append_cons]
        decide)
      (by
        rw [hsh, List.take_succ_cons, take_append_of_le (le_refl _),
          List.take_length, paren_depth_cons_open, hbP1]
        ring)
      (by
        intro k hk hbad
        obtain ⟨hmem, hdep⟩ := hbad
        cases k with
        | zero =>
            rw [hsh] at hmem
            rw [show ("(" :: (P1.render ++ "||" :: (Q1.render ++ [")"]))).getD 0 ""
                = "(" from rfl] at hmem
            exact absurd hmem (by decide)
        | succ k1 =>
            have hk1 : k1 < P1.render.length := by omega
            rw [hsh, getD_cons_succ, List.getD_append _ _ _ _ hk1] at hmem
            have hdecomp := list_decomp_getD hk1
            have hge := hbP3 (P1.render.take k1) (P1.render.getD k1 "")
              (P1.render.drop (k1 + 1)) hdecomp hmem
            rw [hsh, List.take_succ_cons, take_append_of_le (by omega),
              paren_depth_cons_open] at hdep
            omega)
    simpa using this
  unfold get_top_level_logical_connective
  rw [hscan]
  rw [show (some (P1.render.length + 1)).getD
      ((Formula.disj L P1 Q1).render.length - 1) = P1.render.length + 1 from rfl]
  rw [if_pos (by
    constructor
    · omega
    · rw [hsh]
      simp only [List.length_cons, List.length_append, List.length_nil]
      omega)]

theorem string_to_formula_aux_roundtrip {L : Language} (hL : L.wf) :
    ∀ {P : Formula}, Formula.wf L P →
      ∀ fuel, P.render.length < fuel →
        string_to_formula_aux L fuel P.render = .ok P := by
  intro P hwf
  induction hwf with
  | eq h1 h2 =>
      rename_i t1 t2
      intro fuel hfuel
      have hsh : (Formula.eq L t1 t2).render = "=" :: (t1.render ++ t2.render) := rfl
      have hl1 : 0 < t1.render.length := List.length_pos.mpr (Term.render_ne_nil t1)
      have hl2 : 0 < t2.render.length := List.length_pos.mpr (Term.render_ne_nil t2)
      have hlen2 : ("=" :: (t1.render ++ t2.render)).length
          = t1.render.length + t2.render.length + 1 := by
        simp only [List.length_cons, List.length_append]
      cases fuel with
      | zero => exact absurd hfuel (by omega)
      | succ fl =>
          rw [hsh]
          simp only [string_to_formula_aux]
          rw [if_neg (by omega)]
          rw [if_pos (by decide)]
          apply firstOk_eq_ok
          · intro i himem r hr
            obtain ⟨u1, hu1, hr2⟩ := except_bind_ok.mp hr
            obtain ⟨u2, hu2, hr3⟩ := except_bind_ok.mp hr2
            obtain ⟨hL1, hL2, rfl⟩ := mkEqualityFormula_ok_iff.mp hr3
            obtain ⟨hs1, hw1⟩ := string_to_term_exact hu1
            obtain ⟨hs2, hw2⟩ := string_to_term_exact hu2
            have hib := List.mem_range'_1.mp (show i ∈ List.range' 2
              ((("=" :: (t1.render ++ t2.render)).length) - 2) from himem)
            have hdrop1 : ("=" :: (t1.render ++ t2.render)).drop 1
                = t1.render ++ t2.render := rfl
            rw [hdrop1] at hs1
            have hpre_u1 : u1.render <+: t1.render ++ t2.render := by
              rw [← hs1]
              exact List.take_prefix _ _
            have hpre_t1 : t1.render <+: t1.render ++ t2.render :=
              List.prefix_append _ _
            have hren : u1.render = t1.render := by
              rcases le_total u1.render.length t1.render.length with hle | hle
              · exact render_prefix_free hL hw1 h1
                  (List.prefix_of_prefix_length_le hpre_u1 hpre_t1 hle)
              · exact (render_prefix_free hL h1 hw1
                  (List.prefix_of_prefix_length_le hpre_t1 hpre_u1 hle)).symm
            have hu1t1 : u1 = t1 := render_inj hL hw1 h1 hren
            have hslice_len : u1.render.length = i - 1 := by
              rw [← hs1, List.length_take]
              rw [min_eq_left (by simp only [List.length_append]; omega)]
            have hi : i = t1.render.length + 1 := by
              rw [hren] at hslice_len
              omega
            have hdrop2 : ("=" :: (t1.render ++ t2.render)).drop i = t2.render := by
              rw [hi]
              rw [show ("=" :: (t1.render ++ t2.render)).drop (t1.render.length + 1)
                  = (t1.render ++ t2.render).drop t1.render.length from rfl]
              exact List.drop_left _ _
            rw [hdrop2] at hs2
            have hu2t2 : u2 = t2 := render_inj hL hw2 h2 hs2.symm
            rw [hu1t1, hu2t2]
          · refine ⟨t1.render.length + 1, ?_, ?_⟩
            · show _ ∈ List.range' 2 ((("=" :: (t1.render ++ t2.render)).length) - 2)
              apply List.mem_range'_1.mpr
              omega
            · show (do
                  let u1 ← string_to_term L ((("=" :: (t1.render ++ t2.render)).drop 1).take
                    (t1.render.length + 1 - 1))
                  let u2 ← string_to_term L (("=" :: (t1.render ++ t2.render)).drop
                    (t1.render.length + 1))
                  mkEqualityFormula L u1 u2) = .ok (Formula.eq L t1 t2)
              have hsl1 : (("=" :: (t1.render ++ t2.render)).drop 1).take
                  (t1.render.length + 1 - 1) = t1.render := by
                rw [show ("=" :: (t1.render ++ t2.render)).drop 1
                    = t1.render ++ t2.render from rfl,
                  show t1.render.length + 1 - 1 = t1.render.length from rfl]
                exact List.take_left _ _
              have hsl2 : ("=" :: (t1.render ++ t2.render)).drop
                  (t1.render.length + 1) = t2.render := by
                rw [show ("=" :: (t1.render ++ t2.render)).drop (t1.render.length + 1)
                    = (t1.render ++ t2.render).drop t1.render.length from rfl]
                exact List.drop_left _ _
              rw [hsl1, string_to_term_roundtrip hL h1, ok_bind, hsl2,
                string_to_term_roundtrip hL h2, ok_bind]
              exact mkEqualityFormula_ok_iff.mpr
                ⟨Term.wf.lang_eq h1, Term.wf.lang_eq h2, rfl⟩
  | rel R args harity hmem =>
      intro fuel hfuel
      have hpos : 0 < args.length := (relation_symbol_facts hL harity).2
      have hane : args ≠ [] := by
        intro he
        simp [he] at hpos
      obtain ⟨w, ws, hws⟩ : ∃ w ws, Term.render_list args = w :: ws := by
        cases hrl : Term.render_list args with
        | nil => exact absurd hrl (render_list_ne_nil hane)
        | cons w ws => exact ⟨w, ws, rfl⟩
      have hrlen : (Term.render_list args).length = ws.length + 1 := by
        rw [hws]
        rfl
      have hlen_ge : args.length ≤ (Term.render_list args).length :=
        render_list_length_ge args
      have hflen : (Formula.rel L R args).render.length = ws.length + 2 := by
        rw [show (Formula.rel L R args).render = R :: Term.render_list args from rfl,
          List.length_cons, hrlen]
      have hRne : R ≠ "=" := (plain_ne (Or.inr (relation_symbol_facts hL harity).1)).2.2.2.2.2.1
      cases fuel with
      | zero => exact absurd hfuel (by omega)
      | succ fl =>
          rw [hflen] at hfuel
          rw [show (Formula.rel L R args).render = R :: Term.render_list args from rfl, hws]
          simp only [string_to_formula_aux]
          rw [if_neg (by simp only [List.length_cons]; omega)]
          rw [if_neg (by simp [hRne])]
          simp only [harity]
          rw [if_pos (by simp only [List.length_cons]; omega)]
          by_cases h1 : args.length = 1
          · rw [if_pos (by simp [h1])]
            obtain ⟨a, rfl⟩ : ∃ a, args = [a] := by
              cases args with
              | nil => simp at h1
              | cons a as =>
                  cases as with
                  | nil => exact ⟨a, rfl⟩
                  | cons b bs => simp at h1
            have hdrop : w :: ws = a.render := by
              rw [← hws, render_list_cons,
                show Term.render_list [] = [] from rfl, List.append_nil]
            have hd1 : List.drop 1 (R :: w :: ws) = a.render := hdrop
            rw [hd1, string_to_term_roundtrip hL (hmem a (List.mem_cons_self a [])),
              ok_bind]
            exact mkRelationFormula_ok_iff.mpr
              ⟨harity, fun u hu => by
                rw [List.mem_singleton.mp hu]
                exact Term.wf.lang_eq (hmem a (List.mem_cons_self a [])),
                rfl⟩
          · rw [if_neg (by simp [h1])]
            apply firstOk_eq_ok
            · intro c hcmem r hr
              obtain ⟨ts, hps, hmk⟩ := except_bind_ok.mp hr
              obtain ⟨hrl, hwl, -⟩ := parse_slices_exact
                (fun s' t' h' => string_to_term_exact h') c _ 1 ts hps
              obtain ⟨hlk, hlang, rfl⟩ := mkRelationFormula_ok_iff.mp hmk
              have hrlts : Term.render_list ts = Term.render_list args := by
                rw [hrl]
                show w :: ws = Term.render_list args
                exact hws.symm
              have hts : ts = args := render_list_inj hL
                (fun a hA u hu hr' => render_inj hL (hwl a hA) hu hr') hwl hmem hrlts
              rw [hts]
            · refine ⟨renderSplits 1 args, ?_, ?_⟩
              · apply mem_combinations_of_sublist
                · rw [show pyRange 2 (R :: w :: ws).length
                      = List.range' 2 ((R :: w :: ws).length - 2) from rfl]
                  apply sublist_range'_of_pairwise _ 2 ((R :: w :: ws).length)
                    (renderSplits_pairwise args 1)
                  intro e he
                  have hb := renderSplits_mem_bounds args 1 e he
                  simp only [List.length_cons]
                  omega
                · have := renderSplits_length args 1 hane
                  omega
              · show (do
                    let ts ← parse_slices (string_to_term L) (R :: w :: ws) 1
                      (renderSplits 1 args)
                    mkRelationFormula L R ts) = .ok (Formula.rel L R args)
                rw [parse_slices_complete args (R :: w :: ws) 1 hane hws.symm
                  (fun a hA => string_to_term_roundtrip hL (hmem a hA)), ok_bind]
                exact mkRelationFormula_ok_iff.mpr
                  ⟨harity, fun u hu => Term.wf.lang_eq (hmem u hu), rfl⟩
  | neg hP ih =>
      rename_i P1
      intro fuel hfuel
      have hsh : (Formula.neg L P1).render = "(" :: "!!" :: (P1.render ++ [")"]) := rfl
      have hlen : (Formula.neg L P1).render.length = P1.render.length + 3 := by
        rw [hsh]
        simp only [List.length_cons, List.length_append, List.length_nil]
      have hnone : L.get_relation_arity "(" = none := (not_valid_lookups hL (by decide)).2.2
      cases fuel with
      | zero => exact absurd hfuel (by omega)
      | succ fl =>
          rw [hlen] at hfuel
          rw [hsh]
          simp only [string_to_formula_aux]
          rw [if_neg (by simp only [List.length_cons]; omega)]
          rw [if_neg (by decide)]
          simp only [hnone]
          unfold string_to_formula_paren
          have hhead : ("(" :: "!!" :: (P1.render ++ [")"])).head? = some "(" := rfl
          have hlast : ("(" :: "!!" :: (P1.render ++ [")"])).getLast? = some ")" := by
            rw [show ("(" :: "!!" :: (P1.render ++ [")"]))
                = ("(" :: "!!" :: P1.render) ++ [")"] from by simp]
            exact List.getLast?_concat _
          rw [if_neg (by simp [hhead, hlast])]
          rw [if_pos (by rfl)]
          have hslice : (("(" :: "!!" :: (P1.render ++ [")"])).drop 2).dropLast
              = P1.render := by
            rw [show ("(" :: "!!" :: (P1.render ++ [")"])).drop 2
                = P1.render ++ [")"] from rfl]
            exact List.dropLast_concat
          rw [hslice, ih fl (by omega), ok_bind]
          exact mkNegationFormula_ok_iff.mpr ⟨Formula.wf.flang_eq hP, rfl⟩
  | disj hP hQ ihP ihQ =>
      rename_i P1 Q1
      intro fuel hfuel
      have hsh : (Formula.disj L P1 Q1).render
          = "(" :: (P1.render ++ "||" :: (Q1.render ++ [")"])) := rfl
      have hlenP := formula_render_length hL hP
      have hlenQ := formula_render_length hL hQ
      have hlen : (Formula.disj L P1 Q1).render.length
          = P1.render.length + Q1.render.length + 3 := by
        rw [hsh]
        simp only [List.length_cons, List.length_append, List.length_nil]
        omega
      have hnone : L.get_relation_arity "(" = none := (not_valid_lookups hL (by decide)).2.2
      cases fuel with
      | zero => exact absurd hfuel (by omega)
      | succ fl =>
          rw [hlen] at hfuel
          have hconn := disj_top_connective hL hP hQ
          rw [hsh] at hconn
          rw [hsh]
          simp only [string_to_formula_aux]
          rw [if_neg (by simp only [List.length_cons, List.length_append]; omega)]
          rw [if_neg (by decide)]
          simp only [hnone]
          unfold string_to_formula_paren
          have hhead : ("(" :: (P1.render ++ "||" :: (Q1.render ++ [")"]))).head?
              = some "(" := rfl
          have hlast : ("(" :: (P1.render ++ "||" :: (Q1.render ++ [")"]))).getLast?
              = some ")" := by
            rw [show ("(" :: (P1.render ++ "||" :: (Q1.render ++ [")"])))
                = ("(" :: (P1.render ++ "||" :: Q1.render)) ++ [")"] from by simp]
            exact List.getLast?_concat _
          rw [if_neg (by simp [hhead, hlast])]
          have hhd : ("(" :: (P1.render ++ "||" :: (Q1.render ++ [")"]))).getD 1 ""
              = P1.render.getD 0 "" := by
            rw [getD_cons_succ, List.getD_append _ _ _ _ (by omega)]
          have hhdP := formula_render_head_cases hL hP
          have hne1 : P1.render.getD 0 "" ≠ "!!" := by
            rcases hhdP with h | h | h
            · rw [h]; decide
            · exact (plain_ne (Or.inr h)).2.2.1
            · rw [h]; decide
          have hne2 : P1.render.getD 0 "" ≠ "AA" := by
            rcases hhdP with h | h | h
            · rw [h]; decide
            · exact (plain_ne (Or.inr h)).2.2.2.1
            · rw [h]; decide
          have hne3 : P1.render.getD 0 "" ≠ "EE" := by
            rcases hhdP with h | h | h
            · rw [h]; decide
            · exact (plain_ne (Or.inr h)).2.2.2.2.1
            · rw [h]; decide
          rw [if_neg (by rw [hhd]; simpa using hne1)]
          rw [if_neg (fun hcond => hne2 (by rw [← hhd]; exact hcond.2.1))]
          rw [if_neg (fun hcond => hne3 (by rw [← hhd]; exact hcond.2.1))]
          rw [hconn]
          have hcv : ("(" :: (P1.render ++ "||" :: (Q1.render ++ [")"]))).getD
              (P1.render.length + 1) "" = "||" := by
            rw [getD_cons_succ, getD_append_cons]
          simp only [ok_bind, hcv]
          rw [if_pos (by decide)]
          have hsl1 : (("(" :: (P1.render ++ "||" :: (Q1.render ++ [")"]))).drop 1).take
              (P1.render.length + 1 - 1) = P1.render := by
            rw [show ("(" :: (P1.render ++ "||" :: (Q1.render ++ [")"]))).drop 1
                = P1.render ++ "||" :: (Q1.render ++ [")"]) from rfl,
              show P1.render.length + 1 - 1 = P1.render.length from rfl]
            exact List.take_left _ _
          have hsl2 : (("(" :: (P1.render ++ "||" :: (Q1.render ++ [")"]))).drop
              (P1.render.length + 1 + 1)).dropLast = Q1.render := by
            rw [show ("(" :: (P1.render ++ "||" :: (Q1.render ++ [")"]))).drop
                  (P1.render.length + 1 + 1)
                = (P1.render ++ "||" :: (Q1.render ++ [")"])).drop
                  (P1.render.length + 1) from rfl]
            rw [List.drop_append_eq_append_drop]
            rw [List.drop_eq_nil_of_le (by omega),
              show P1.render.length + 1 - P1.render.length = 1 from by omega]
            rw [List.nil_append,
              show ("||" :: (Q1.render ++ [")"])).drop 1 = Q1.render ++ [")"] from rfl]
            exact List.dropLast_concat
          rw [hsl1, ihP fl (by omega), ok_bind, hsl2, ihQ fl (by omega), ok_bind]
          exact mkDisjunctionFormula_ok_iff.mpr
            ⟨Formula.wf.flang_eq hP, Formula.wf.flang_eq hQ, rfl⟩
  | all v hv hP ih =>
      rename_i P1
      intro fuel hfuel
      have hsh : (Formula.all L v P1).render
          = "(" :: "AA" :: v :: ")" :: "(" :: (P1.render ++ [")"]) := rfl
      have hlen : (Formula.all L v P1).render.length = P1.render.length + 6 := by
        rw [hsh]
        simp only [List.length_cons, List.length_append, List.length_nil]
      have hnone : L.get_relation_arity "(" = none := (not_valid_lookups hL (by decide)).2.2
      cases fuel with
      | zero => exact absurd hfuel (by omega)
      | succ fl =>
          rw [hlen] at hfuel
          rw [hsh]
          simp only [string_to_formula_aux]
          rw [if_neg (by simp only [List.length_cons]; omega)]
          rw [if_neg (by decide)]
          simp only [hnone]
          unfold string_to_formula_paren
          have hhead : ("(" :: "AA" :: v :: ")" :: "(" :: (P1.render ++ [")"])).head?
              = some "(" := rfl
          have hlast : ("(" :: "AA" :: v :: ")" :: "(" :: (P1.render ++ [")"])).getLast?
              = some ")" := by
            rw [show ("(" :: "AA" :: v :: ")" :: "(" :: (P1.render ++ [")"]))
                = ("(" :: "AA" :: v :: ")" :: "(" :: P1.render) ++ [")"] from by simp]
            exact List.getLast?_concat _
          rw [if_neg (by simp [hhead, hlast])]
          rw [if_neg (by simp)]
          rw [if_pos (show (6 ≤ ("(" :: "AA" :: v :: ")" :: "(" :: (P1.render ++ [")"])).length
              ∧ ("(" :: "AA" :: v :: ")" :: "(" :: (P1.render ++ [")"])).getD 1 "" = "AA"
              ∧ is_variable_symbol (("(" :: "AA" :: v :: ")" :: "(" ::
                  (P1.render ++ [")"])).getD 2 "") = true
              ∧ ("(" :: "AA" :: v :: ")" :: "(" :: (P1.render ++ [")"])).getD 3 "" = ")"
              ∧ ("(" :: "AA" :: v :: ")" :: "(" :: (P1.render ++ [")"])).getD 4 "" = "(")
            from ⟨by simp only [List.length_cons, List.length_append, List.length_nil]; omega,
              rfl, hv, rfl, rfl⟩)]
          have hslice : (("(" :: "AA" :: v :: ")" :: "(" :: (P1.render ++ [")"])).drop
              5).dropLast = P1.render := by
            rw [show ("(" :: "AA" :: v :: ")" :: "(" :: (P1.render ++ [")"])).drop 5
                = P1.render ++ [")"] from rfl]
            exact List.dropLast_concat
          rw [hslice, ih fl (by omega), ok_bind]
          exact mkQuantifiedFormula_ok_iff.mpr ⟨Formula.wf.flang_eq hP, hv, rfl⟩

theorem string_to_formula_roundtrip {L : Language} (hL : L.wf) {P : Formula}
    (h : Formula.wf L P) : string_to_formula L P.render = .ok P :=
  string_to_formula_aux_roundtrip hL h (P.render.length + 1) (by omega)

/-- C4: for every well-constructed term and formula over a well-constructed
language, parsing the token rendering (the space-joined `__str__` output) over
the tree's own language returns a structurally equal tree:
`string_to_term L t.render = .ok t` and `string_to_formula L P.render = .ok P`. -/
theorem claim4_parse_render_roundtrip :
    ∀ (L : Language), Language.wf L →
      (∀ t : Term, Term.wf L t → string_to_term L t.render = .ok t)
      ∧ (∀ P : Formula, Formula.wf L P → string_to_formula L P.render = .ok P) :=
  fun _ hL =>
    ⟨fun _ ht => string_to_term_roundtrip hL ht,
     fun _ hP => string_to_formula_roundtrip hL hP⟩

theorem claim4_witness :
    string_to_term L0 (Term.render (Term.func L0 "f1" [Term.var L0 "v1"]))
        = .ok (Term.func L0 "f1" [Term.var L0 "v1"])
      ∧ string_to_formula L0 (Formula.render (Formula.all L0 "v1"
            (Formula.eq L0 (Term.var L0 "v1") (Term.const L0 "a"))))
        = .ok (Formula.all L0 "v1"
            (Formula.eq L0 (Term.var L0 "v1") (Term.const L0 "a"))) :=
  ⟨(claim4_parse_render_roundtrip L0 L0_wf).1 _
      (Term.wf.func "f1" [Term.var L0 "v1"] (by decide) (by
        intro a ha
        rw [List.mem_singleton.mp ha]
        exact Term.wf.var "v1" (by decide))),
    (claim4_parse_render_roundtrip L0 L0_wf).2 _
      (Formula.wf.all "v1" (by decide)
        (Formula.wf.eq (Term.wf.var "v1" (by decide))
          (Term.wf.const "a" (by decide))))⟩

end FolLy
